import Mathlib

/-!
Shallow embedding of `pkg/apiwatch/resources.go` (KubeStellar): the
versioned API-resource catalog (`resourcesListWatcher`), its List/Watch
protocol, the definer index, the debounce/relist scheduler and the
subresource tree builder (`arMap`).

Go maps are embedded as association lists; the list order plays the role
of the map's internal (unspecified) iteration order.  Sets (`GoSet`) are
embedded as membership lists, again with the list order standing for the
iteration order.  The `int64` version counter is embedded as an `Int`
reduced to the two's-complement range after every increment
(`wrapInt64`), as Go's `+= 1` wraps.  Time is an abstract `Int` of
seconds.
-/

namespace Apiwatch

/-- `ksmetav1a1.Definer`: a `{kind, name}` pair attached to a resource. -/
structure Definer where
  kind : String
  name : String
deriving DecidableEq, Repr

/-- `objectID` from resources.go: identity of an object that defines resources. -/
structure ObjectID where
  apiVersion : String
  kind : String
  name : String
deriving DecidableEq, Repr

/-- `metav1.GroupVersionResource`. -/
structure GroupVersionResource where
  group : String
  version : String
  resource : String
deriving DecidableEq, Repr

/-- The order-insensitive fields of `ksmetav1a1.APIResourceSpec`
(everything except the nested subresource list). -/
structure SpecCore where
  name : String
  singularName : String
  namespaced : Bool
  group : String
  version : String
  kind : String
  verbs : List String
  definers : List Definer
deriving DecidableEq, Repr

/-- `ksmetav1a1.APIResourceSpec`: core fields plus the nested
`SubResources` list (a recursive type, hence an inductive). -/
inductive APIResourceSpec : Type where
  | mk (core : SpecCore) (subResources : List APIResourceSpec)
deriving Repr

def APIResourceSpec.core : APIResourceSpec → SpecCore
  | .mk c _ => c

def APIResourceSpec.subResources : APIResourceSpec → List APIResourceSpec
  | .mk _ s => s

/-- `ksmetav1a1.APIResource` as produced by `specComplete`: the
externally visible object metadata plus the spec.  The constant
`TypeMeta` fields are omitted. -/
structure APIResource where
  metaName : String
  resourceVersion : String
  spec : APIResourceSpec
deriving Repr

/-! ## Go map / set embedding

A `GoMap` is an association list; `lookupKey` returns the value at the
first matching key.  The well-formed maps built by the embedded code
never hold duplicate keys; the constructors below (`setKey`) preserve
both key uniqueness and the position of existing keys, matching a Go
map under one fixed iteration order. -/

def lookupKey [DecidableEq κ] (k : κ) : List (κ × ν) → Option ν
  | [] => none
  | (k₁, v₁) :: rest => if k₁ = k then some v₁ else lookupKey k rest

/-- Replace the value at key `k` in place (first occurrence), appending
a fresh entry at the end when `k` is absent: the Go map update `m[k] = v`. -/
def setKey [DecidableEq κ] (k : κ) (v : ν) : List (κ × ν) → List (κ × ν)
  | [] => [(k, v)]
  | (k₁, v₁) :: rest =>
      if k₁ = k then (k₁, v) :: rest else (k₁, v₁) :: setKey k v rest

/-- Remove every entry with key `k`: the Go `delete(m, k)`. -/
def delKey [DecidableEq κ] (k : κ) : List (κ × ν) → List (κ × ν)
  | [] => []
  | (k₁, v₁) :: rest => if k₁ = k then delKey k rest else (k₁, v₁) :: delKey k rest

theorem lookupKey_setKey_self [DecidableEq κ] (k : κ) (v : ν) (l : List (κ × ν)) :
    lookupKey k (setKey k v l) = some v := by
  induction l with
  | nil => simp [setKey, lookupKey]
  | cons hd tl ih =>
      obtain ⟨k₁, v₁⟩ := hd
      by_cases h : k₁ = k
      · simp [setKey, h, lookupKey]
      · simp [setKey, h, lookupKey, ih]

theorem lookupKey_setKey_ne [DecidableEq κ] (k k₂ : κ) (v : ν) (l : List (κ × ν))
    (hne : k₂ ≠ k) : lookupKey k₂ (setKey k v l) = lookupKey k₂ l := by
  have hne₂ : k ≠ k₂ := Ne.symm hne
  induction l with
  | nil => simp [setKey, lookupKey, hne₂]
  | cons hd tl ih =>
      obtain ⟨k₁, v₁⟩ := hd
      by_cases h : k₁ = k
      · subst h
        simp [setKey, lookupKey, hne₂]
      · simp only [setKey, if_neg h, lookupKey]
        by_cases h₂ : k₁ = k₂ <;> simp [h₂, ih]

theorem lookupKey_delKey_self [DecidableEq κ] (k : κ) (l : List (κ × ν)) :
    lookupKey k (delKey k l) = none := by
  induction l with
  | nil => simp [delKey, lookupKey]
  | cons hd tl ih =>
      obtain ⟨k₁, v₁⟩ := hd
      by_cases h : k₁ = k
      · simpa [delKey, h] using ih
      · simpa [delKey, h, lookupKey] using ih

theorem lookupKey_delKey_ne [DecidableEq κ] (k k₂ : κ) (l : List (κ × ν))
    (hne : k₂ ≠ k) : lookupKey k₂ (delKey k l) = lookupKey k₂ l := by
  induction l with
  | nil => simp [delKey, lookupKey]
  | cons hd tl ih =>
      obtain ⟨k₁, v₁⟩ := hd
      by_cases h : k₁ = k
      · subst h
        have h₂ : k₁ ≠ k₂ := Ne.symm hne
        simpa [delKey, lookupKey, h₂] using ih
      · by_cases h₂ : k₁ = k₂ <;> simp [delKey, h, lookupKey, h₂, hne, ih]

/-! ## Splitting resource names on `/`

`strings.Split(rscName, "/")` in `listWithSubresources`, and the slash
counting of `schema.ParseGroupVersion`. -/

def splitSlash : List Char → List (List Char)
  | [] => [[]]
  | c :: rest =>
      if c = '/' then [] :: splitSlash rest
      else
        match splitSlash rest with
        | [] => [[c]]
        | h :: t => (c :: h) :: t

theorem splitSlash_ne_nil (l : List Char) : splitSlash l ≠ [] := by
  induction l with
  | nil => simp [splitSlash]
  | cons c rest ih =>
      by_cases h : c = '/'
      · simp [splitSlash, h]
      · simp only [splitSlash, if_neg h]
        cases hr : splitSlash rest <;> simp

theorem splitSlash_chunk_no_slash (l : List Char) :
    ∀ chunk ∈ splitSlash l, '/' ∉ chunk := by
  induction l with
  | nil => simp [splitSlash]
  | cons c rest ih =>
      by_cases h : c = '/'
      · intro chunk hc
        simp only [splitSlash, if_pos h, List.mem_cons] at hc
        rcases hc with rfl | hc
        · simp
        · exact ih chunk hc
      · intro chunk hc
        simp only [splitSlash, if_neg h] at hc
        cases hr : splitSlash rest with
        | nil => exact absurd hr (splitSlash_ne_nil rest)
        | cons h₁ t₁ =>
            rw [hr] at hc
            have ihh₁ : '/' ∉ h₁ := ih h₁ (hr ▸ List.mem_cons_self _ _)
            rcases List.mem_cons.mp hc with rfl | hc₂
            · intro hmem
              rcases List.mem_cons.mp hmem with heq | hin
              · exact h heq.symm
              · exact ihh₁ hin
            · exact ih chunk (hr ▸ List.mem_cons_of_mem _ hc₂)

/-- `strings.Split(s, "/")` lifted to `String`. -/
def goSplitSlash (s : String) : List String :=
  (splitSlash s.data).map List.asString

/-- Whether a string contains a `/` character. -/
def hasSlash (s : String) : Bool :=
  decide ('/' ∈ s.data)

theorem goSplitSlash_no_slash (s : String) :
    ∀ part ∈ goSplitSlash s, hasSlash part = false := by
  intro part hp
  simp only [goSplitSlash, List.mem_map] at hp
  obtain ⟨chunk, hc, rfl⟩ := hp
  have hns := splitSlash_chunk_no_slash s.data chunk hc
  simp only [hasSlash, List.asString, decide_eq_false_iff_not]
  exact hns

/-- `schema.ParseGroupVersion`: empty or `"/"` parse to the empty
group/version; no slash means a bare version; one slash splits into
group and version; more slashes are an error (`none`). -/
def parseGroupVersion (s : String) : Option (String × String) :=
  if s = "" ∨ s = "/" then some ("", "")
  else
    match goSplitSlash s with
    | [v] => some ("", v)
    | [g, v] => some (g, v)
    | _ => none

theorem parseGroupVersion_no_slash (s g v : String)
    (h : parseGroupVersion s = some (g, v)) :
    hasSlash g = false ∧ hasSlash v = false := by
  unfold parseGroupVersion at h
  by_cases he : s = "" ∨ s = "/"
  · rw [if_pos he] at h
    simp only [Option.some.injEq, Prod.mk.injEq] at h
    obtain ⟨rfl, rfl⟩ := h
    constructor <;> rfl
  · rw [if_neg he] at h
    cases hs : goSplitSlash s with
    | nil => rw [hs] at h; exact absurd h (by simp)
    | cons a t =>
        cases t with
        | nil =>
            rw [hs] at h
            simp only [Option.some.injEq, Prod.mk.injEq] at h
            obtain ⟨h₁, h₂⟩ := h
            subst h₁; subst h₂
            exact ⟨rfl, goSplitSlash_no_slash s _ (hs ▸ List.mem_cons_self _ _)⟩
        | cons b t₂ =>
            cases t₂ with
            | nil =>
                rw [hs] at h
                simp only [Option.some.injEq, Prod.mk.injEq] at h
                obtain ⟨h₁, h₂⟩ := h
                subst h₁; subst h₂
                exact ⟨goSplitSlash_no_slash s _ (hs ▸ List.mem_cons_self _ _),
                  goSplitSlash_no_slash s _
                    (hs ▸ List.mem_cons_of_mem _ (List.mem_cons_self _ _))⟩
            | cons c t₃ => rw [hs] at h; exact absurd h (by simp)

/-! ## The subresource tree (`arMap` / `arTuple`)

`arMap` maps a path segment to an `arTuple` (optional spec plus child
map).  The whole map is embedded as the child list of a virtual root;
list position is the fixed iteration-order representative. -/

/-- `arTuple`: optional own spec plus the child map (`subresources`). -/
inductive ArNode : Type where
  | mk (spec : Option APIResourceSpec) (children : List (String × ArNode))

def ArNode.spec : ArNode → Option APIResourceSpec
  | .mk s _ => s

def ArNode.children : ArNode → List (String × ArNode)
  | .mk _ c => c

/-- `arMap.insert`: walk/create one node per path segment, attach `spec`
at the terminal node.  The Go code indexes `name[0]` and so would panic
on an empty path; call sites only pass `strings.Split` results, which
are never empty, and the `[]` equation is dead. -/
def arInsert (spec : APIResourceSpec) : List String → List (String × ArNode) → List (String × ArNode)
  | [], am => am
  | [seg], am =>
      let art := (lookupKey seg am).getD (ArNode.mk none [])
      setKey seg (ArNode.mk (some spec) art.children) am
  | seg :: rest, am =>
      let art := (lookupKey seg am).getD (ArNode.mk none [])
      setKey seg (ArNode.mk art.spec (arInsert spec rest art.children)) am

/-- `arMap.toList`: emit one spec per node that has its own spec, with
the node's key as its name and the children's specs appended to its
subresource list; a node with children but no own spec is a logged gap
and contributes nothing. -/
def arToList : List (String × ArNode) → List APIResourceSpec
  | [] => []
  | (seg, ArNode.mk ospec children) :: rest =>
      match ospec with
      | none => arToList rest
      | some (APIResourceSpec.mk core subs) =>
          APIResourceSpec.mk { core with name := seg } (subs ++ arToList children)
            :: arToList rest

/-! ## Discovery feed and the List pipeline -/

/-- One entry of the `groupList` returned by `ServerGroupsAndResources`:
the group name and its preferred version. -/
structure APIGroupFeed where
  name : String
  preferredVersion : String
deriving DecidableEq, Repr

/-- The fields of `metav1.APIResource` read by `enumAPIResourcesLocked`. -/
structure MetaAPIResource where
  name : String
  singularName : String
  namespaced : Bool
  version : String
  kind : String
  verbs : List String
deriving DecidableEq, Repr

/-- One `metav1.APIResourceList`: a group-version string plus its resources. -/
structure APIResourceListFeed where
  groupVersion : String
  apiResources : List MetaAPIResource
deriving DecidableEq, Repr

/-- The definer index maps (forward: resource to definer set, reverse:
definer to resource set).  `GoSet` is a membership list. -/
abbrev FwdMap := List (GroupVersionResource × List ObjectID)
abbrev RevMap := List (ObjectID × List GroupVersionResource)

/-- `definersToSlice`: project the definer set to `{kind, name}` pairs,
in the order its argument is enumerated.  The source ranges the definer
set map (resources.go:417), whose iteration order is unspecified: the
argument's list order stands for one observed iteration order, and
`enumAPIResourcesLockedOrd` below quantifies over it. -/
def definersToSlice (asSet : List ObjectID) : List Definer :=
  asSet.map fun d => ⟨d.kind, d.name⟩

/-- `enumAPIResourcesLocked`: build one `APIResourceSpec` per discovered
resource, defaulting an absent per-resource version to the group
version and attaching the current definers from the forward index. -/
def enumAPIResourcesLocked (fwd : FwdMap) (gv : String × String)
    (mrs : List MetaAPIResource) : List APIResourceSpec :=
  mrs.map fun rsc =>
    let rscVersion := if rsc.version = "" then gv.2 else rsc.version
    let gvr : GroupVersionResource := ⟨gv.1, rscVersion, rsc.name⟩
    let definers := definersToSlice ((lookupKey gvr fwd).getD [])
    APIResourceSpec.mk
      ⟨rsc.name, rsc.singularName, rsc.namespaced, gv.1, rscVersion, rsc.kind,
        rsc.verbs, definers⟩ []

/-- `specComplete`: wrap a spec as an `APIResource` object whose name is
the colon-joined `group:version:resourceName` composite. -/
def specComplete (spec : APIResourceSpec) (resourceVersionS : String)
    (gv : String × String) : APIResource :=
  { metaName := gv.1 ++ ":" ++ gv.2 ++ ":" ++ spec.core.name
    resourceVersion := resourceVersionS
    spec := spec }

/-- `listWithSubresources`: build the preferred-version map from the
group list, then per resource list: parse the group version (parse
failure skips the group), drop non-preferred versions, route the specs
through the subresource tree, and complete every emitted spec.  The
discovery error is only logged; it never propagates. -/
def listWithSubresources (groups : List APIGroupFeed)
    (resourceLists : List APIResourceListFeed) (fwd : FwdMap)
    (resourceVersionS : String) : List APIResource :=
  let groupToVersion : List (String × String) :=
    groups.foldl (fun m ag => setKey ag.name ag.preferredVersion m) []
  (resourceLists.filterMap fun group =>
    match parseGroupVersion group.groupVersion with
    | none => none
    | some gv =>
        if (lookupKey gv.1 groupToVersion).getD "" ≠ gv.2 then none
        else
          let specs := enumAPIResourcesLocked fwd gv group.apiResources
          let am := specs.foldl
            (fun am ar => arInsert ar (goSplitSlash ar.core.name) am) []
          some ((arToList am).map fun spec =>
            specComplete spec resourceVersionS gv)).flatten

/-- `listSansSubresources`: complete every spec of every parseable
group of the `ServerPreferredResources` feed directly. -/
def listSansSubresources (groupList : List APIResourceListFeed) (fwd : FwdMap)
    (resourceVersionS : String) : List APIResource :=
  (groupList.filterMap fun group =>
    match parseGroupVersion group.groupVersion with
    | none => none
    | some gv =>
        some ((enumAPIResourcesLocked fwd gv group.apiResources).map fun s =>
          specComplete s resourceVersionS gv)).flatten

/-! ## Catalog state and its operations -/

/-- One tracked watch session: the context deadline derived from the
caller's timeout, and whether its cancel function has been called. -/
structure WatchSession where
  deadline : Int
  cancelled : Bool
deriving DecidableEq, Repr

/-- The mutable state of `resourcesListWatcher` (the fields guarded by
its mutex).  `cacheValid` stands for the wrapped discovery cache's
validity; `sessions` stands for the `cancels` list, one entry per watch
session ever registered (the Go code never shrinks that list). -/
structure CatalogState where
  resourceVersionI : Int
  needRelist : Bool
  relistAfter : Int
  cacheValid : Bool
  sessions : List WatchSession
  rscToDefiners : FwdMap
  definerToRscs : RevMap
deriving Repr

/-- The state built by `NewAPIResourceInformer`: version counter 1,
empty definer index, no sessions. -/
def initialCatalog : CatalogState :=
  { resourceVersionI := 1
    needRelist := false
    relistAfter := 0
    cacheValid := true
    sessions := []
    rscToDefiners := []
    definerToRscs := [] }

/-- The per-entry update of the forward (resource-to-definers) mapping:
a resource no longer defined loses `id` (dropping the entry when the
set empties); a newly defined resource gains `id`; anything else is
untouched. -/
def setDefinerStep (id : ObjectID) (removed added : List GroupVersionResource)
    (p : GroupVersionResource × List ObjectID) :
    Option (GroupVersionResource × List ObjectID) :=
  if p.1 ∈ removed then
    let s := p.2.filter (fun d => d ≠ id)
    if s = [] then none else some (p.1, s)
  else if p.1 ∈ added then
    some (p.1, if id ∈ p.2 then p.2 else p.2 ++ [id])
  else some p

/-- Modelled from the spec: the definer-index update `setDefinerLocked`
is called at resources.go:235 but its definition is not among the
provided sources.  Following section 4.3 of the spec: it computes the
symmetric difference of the definer's previous resource set against
`newSet`; removes `id` from the forward (resource-to-definers) mapping
for every resource no longer defined, pruning entries whose set becomes
empty; adds `id` for every newly defined resource; and replaces the
reverse (definer-to-resources) mapping for `id`, deleting the entry
when the new set is empty. -/
def setDefinerLocked (id : ObjectID) (newSet : List GroupVersionResource)
    (fwd : FwdMap) (rev : RevMap) : FwdMap × RevMap :=
  let newSetD := newSet.dedup
  let old := (lookupKey id rev).getD []
  let removed := old.filter (fun r => r ∉ newSetD)
  let added := newSetD.filter (fun r => r ∉ old)
  let fwd₁ := fwd.filterMap (setDefinerStep id removed added)
  let fresh := added.filter (fun r => (lookupKey r fwd).isNone)
  let fwd₂ := fwd₁ ++ fresh.map (fun r => (r, [id]))
  let rev₂ := if newSetD = [] then delKey id rev else setKey id newSetD rev
  (fwd₂, rev₂)

/-- Go `int64` two's-complement wraparound: the value an `int64`
holds after an arithmetic result `n`.  `resourceVersionI` is an
`int64` in the source, so its `+= 1` wraps at the maximum. -/
def wrapInt64 (n : Int) : Int :=
  (n + 9223372036854775808) % 18446744073709551616 - 9223372036854775808

theorem wrapInt64_eq_self (n : Int) (h₁ : -9223372036854775808 ≤ n)
    (h₂ : n < 9223372036854775808) : wrapInt64 n = n := by
  unfold wrapInt64
  omega

/-- A definer notification: the object's identity, whether it is
present (add/update) or deleted, and the resources it defines as
enumerated by the supplier. -/
structure DefinerUpdate where
  oid : ObjectID
  present : Bool
  resources : List GroupVersionResource
deriving DecidableEq, Repr

/-- `invalidateWithDefinerLocked` at time `now`: advance the version,
push the relist deadline 20 seconds out, mark content stale, invalidate
the wrapped discovery cache; then, unless the caller is plain
`Invalidate` (`upd = none`), install the definer's enumerated resource
set (an empty set on deletion).  The contract-violation panic on an
empty kind or API version is not modelled; no claim concerns it. -/
def invalidateWithDefinerLocked (now : Int) (upd : Option DefinerUpdate)
    (st : CatalogState) : CatalogState :=
  let st₁ := { st with
    resourceVersionI := wrapInt64 (st.resourceVersionI + 1)
    relistAfter := now + 20
    needRelist := true
    cacheValid := false }
  match upd with
  | none => st₁
  | some u =>
      let enumr := if u.present then u.resources else []
      let pair := setDefinerLocked u.oid enumr st₁.rscToDefiners st₁.definerToRscs
      { st₁ with rscToDefiners := pair.1, definerToRscs := pair.2 }

/-- `InvalidateWithDefiner`. -/
def InvalidateWithDefiner (now : Int) (upd : DefinerUpdate) (st : CatalogState) : CatalogState :=
  invalidateWithDefinerLocked now (some upd) st

/-- `Invalidate`. -/
def Invalidate (now : Int) (st : CatalogState) : CatalogState :=
  invalidateWithDefinerLocked now none st

/-- One pass of the debounce scheduler's loop body at time `now` (the
goroutine in `NewAPIResourceInformer`): when the staleness flag is set
and the deadline has passed, it cancels every tracked session and
clears the flag (one relist wave, reported as `true`); before the
deadline, or when content is not stale, it changes nothing. -/
def schedulerCheck (now : Int) (st : CatalogState) : CatalogState × Bool :=
  if st.needRelist then
    if now < st.relistAfter then (st, false)
    else
      ({ st with
          sessions := st.sessions.map (fun s => { s with cancelled := true })
          needRelist := false }, true)
  else (st, false)

/-- `metav1.ListOptions` fields read by Watch: the resource version
string and the optional timeout pointer. -/
structure WatchOptions where
  resourceVersion : String
  timeoutSeconds : Option Int
deriving DecidableEq, Repr

/-- `strconv.FormatInt(v, 10)`. -/
def formatInt (i : Int) : String := toString i

/-- The observable outcome of a Watch call. -/
inductive WatchOutcome : Type where
  /-- `apierrors.NewResourceExpired` carrying the requested and current
  version strings; no handle, nil `watch.Interface`. -/
  | expired (requested current : String)
  /-- The dereference `*opts.TimeoutSeconds` of a nil pointer: a
  runtime crash, neither a handle nor an error return. -/
  | nilTimeoutPanic
  /-- A `resourceWatch` handle (index of the new session) and nil error. -/
  | opened (sessionIndex : Nat)
deriving DecidableEq, Repr

/-- `resourcesListWatcher.Watch` at time `now`: compare the formatted
current version with the caller's; on mismatch fail expired with no
session registered; on match dereference the timeout pointer (crashing
when it is nil), then register a session bound to `now + timeout`. -/
def Watch (now : Int) (opts : WatchOptions) (st : CatalogState) :
    WatchOutcome × CatalogState :=
  let resourceVersionS := formatInt st.resourceVersionI
  if resourceVersionS ≠ opts.resourceVersion then
    (.expired opts.resourceVersion resourceVersionS, st)
  else
    match opts.timeoutSeconds with
    | none => (.nilTimeoutPanic, st)
    | some t =>
        (.opened st.sessions.length,
          { st with sessions := st.sessions ++ [⟨now + t, false⟩] })

/-- What one List call observes from discovery: the data of
`ServerGroupsAndResources` (groups, resources) and of
`ServerPreferredResources` (preferred), each with its possibly non-nil
error, which the code only logs. -/
structure DiscoveryFeed where
  groups : List APIGroupFeed
  resources : List APIResourceListFeed
  preferred : List APIResourceListFeed
  groupsErr : Option String
  preferredErr : Option String
deriving Repr

/-- The `ksmetav1a1.APIResourceList` List returns: its ListMeta
resource version and its items. -/
structure APIResourceListObj where
  resourceVersion : String
  items : List APIResource
deriving Repr

/-- `resourcesListWatcher.List`: under lock advance the version and
cancel every tracked session; then build the items from the discovery
feed (per the subresource mode) and stamp the collection with the
fresh version.  The second component of the returned pair is the error
returned to the caller. -/
def listCall (includeSubresources : Bool) (feed : DiscoveryFeed)
    (st : CatalogState) : (APIResourceListObj × Option String) × CatalogState :=
  let st₁ := { st with
    resourceVersionI := wrapInt64 (st.resourceVersionI + 1)
    sessions := st.sessions.map (fun s => { s with cancelled := true }) }
  let resourceVersionS := formatInt st₁.resourceVersionI
  let items :=
    if includeSubresources then
      listWithSubresources feed.groups feed.resources st₁.rscToDefiners resourceVersionS
    else
      listSansSubresources feed.preferred st₁.rscToDefiners resourceVersionS
  (({ resourceVersion := resourceVersionS, items := items }, none), st₁)

/-! ## Operation traces over the catalog -/

/-- One serialized mutation of the catalog state (all three take the
lock in the Go code, so any concurrent execution is some interleaving,
i.e. some trace of these). -/
inductive CatalogOp : Type where
  | listOp (includeSubresources : Bool) (feed : DiscoveryFeed)
  | invalidateOp (now : Int)
  | invalidateWithDefinerOp (now : Int) (upd : DefinerUpdate)

def applyOp (st : CatalogState) : CatalogOp → CatalogState
  | .listOp inc feed => (listCall inc feed st).2
  | .invalidateOp now => Invalidate now st
  | .invalidateWithDefinerOp now upd => InvalidateWithDefiner now upd st

def runOps (st : CatalogState) (ops : List CatalogOp) : CatalogState :=
  ops.foldl applyOp st

theorem applyOp_version (st : CatalogState) (op : CatalogOp) :
    (applyOp st op).resourceVersionI = wrapInt64 (st.resourceVersionI + 1) := by
  cases op with
  | listOp inc feed => rfl
  | invalidateOp now => rfl
  | invalidateWithDefinerOp now upd =>
      simp only [applyOp, InvalidateWithDefiner, invalidateWithDefinerLocked]

theorem runOps_version_no_overflow (ops : List CatalogOp) :
    ∀ st : CatalogState, 0 ≤ st.resourceVersionI →
      st.resourceVersionI + ops.length ≤ 9223372036854775807 →
      (runOps st ops).resourceVersionI = st.resourceVersionI + ops.length := by
  induction ops with
  | nil => intro st h₁ h₂; simp [runOps]
  | cons op rest ih =>
      intro st h₁ h₂
      simp only [List.length_cons] at h₂
      push_cast at h₂
      have hstep : (applyOp st op).resourceVersionI = st.resourceVersionI + 1 := by
        rw [applyOp_version]
        exact wrapInt64_eq_self _ (by omega) (by omega)
      have h₃ : 0 ≤ (applyOp st op).resourceVersionI := by rw [hstep]; omega
      have h₄ : (applyOp st op).resourceVersionI + rest.length ≤ 9223372036854775807 := by
        rw [hstep]; omega
      have hrun : runOps st (op :: rest) = runOps (applyOp st op) rest := rfl
      rw [hrun, ih _ h₃ h₄, hstep]
      simp only [List.length_cons]
      push_cast
      ring

/-- C2 counterexample: `resourceVersionI` is a Go `int64`, so the
increment wraps.  At the maximum int64 value, one more Invalidate call
takes the counter to the minimum int64 value: the version counter
decreases, refuting "never decreases" over every sequence of calls.
(The stamped string then also repeats once the counter passes a value a
second time.) -/
theorem version_counter_wraps_at_int64_max :
    (Invalidate 0 { initialCatalog with
        resourceVersionI := 9223372036854775807 }).resourceVersionI
      = -9223372036854775808
    ∧ (Invalidate 0 { initialCatalog with
        resourceVersionI := 9223372036854775807 }).resourceVersionI
      < 9223372036854775807 := by
  constructor
  · decide
  · decide

/-- C2 amended: every List, Invalidate and InvalidateWithDefiner call
advances the counter by exactly one in wrapping int64 arithmetic.  As
long as the counter stays below the int64 maximum it therefore strictly
increases with each call; in particular, along every operation trace
from the initial counter 1 of length at most 2^63 - 2, the version is 1
plus the number of calls made, so later states have strictly larger
versions (no decrease, no repeat).  Every List stamps the returned
collection with the freshly advanced version — regardless of the
discovery feed, i.e. even when content is unchanged. -/
theorem catalog_version_monotonic_no_wraparound :
    (∀ (st : CatalogState) (op : CatalogOp),
        -9223372036854775808 ≤ st.resourceVersionI →
        st.resourceVersionI < 9223372036854775807 →
          (applyOp st op).resourceVersionI = st.resourceVersionI + 1
            ∧ st.resourceVersionI < (applyOp st op).resourceVersionI)
    ∧ (∀ ops : List CatalogOp, (ops.length : Int) ≤ 9223372036854775806 →
        (runOps initialCatalog ops).resourceVersionI = 1 + ops.length)
    ∧ (∀ (pre : List CatalogOp) (op : CatalogOp) (post : List CatalogOp),
        ((pre ++ op :: post).length : Int) ≤ 9223372036854775806 →
          (runOps initialCatalog pre).resourceVersionI
            < (runOps initialCatalog (pre ++ op :: post)).resourceVersionI)
    ∧ (∀ (st : CatalogState) (inc : Bool) (feed : DiscoveryFeed),
        (listCall inc feed st).1.1.resourceVersion
            = formatInt ((listCall inc feed st).2.resourceVersionI)
          ∧ (listCall inc feed st).2.resourceVersionI
            = wrapInt64 (st.resourceVersionI + 1)) := by
  have hinit : initialCatalog.resourceVersionI = 1 := rfl
  have hrun : ∀ ops : List CatalogOp, (ops.length : Int) ≤ 9223372036854775806 →
      (runOps initialCatalog ops).resourceVersionI = 1 + ops.length := by
    intro ops h
    have h2 := runOps_version_no_overflow ops initialCatalog
      (by rw [hinit]; omega) (by rw [hinit]; omega)
    rw [h2, hinit]
  refine ⟨?_, hrun, ?_, ?_⟩
  · intro st op hlo hhi
    have h := applyOp_version st op
    rw [wrapInt64_eq_self _ (by omega) (by omega)] at h
    exact ⟨h, by rw [h]; omega⟩
  · intro pre op post hlen
    have hlenN : (pre ++ op :: post).length = pre.length + post.length + 1 := by
      simp [List.length_append, List.length_cons]
      omega
    rw [hlenN] at hlen
    push_cast at hlen
    have e₁ := hrun pre (by omega)
    have e₂ := hrun (pre ++ op :: post) (by rw [hlenN]; push_cast; omega)
    rw [e₁, e₂, hlenN]
    push_cast
    omega
  · intro st inc feed
    exact ⟨rfl, rfl⟩

theorem catalog_version_monotonic_no_wraparound_witness :
    (-9223372036854775808 ≤ initialCatalog.resourceVersionI
        ∧ initialCatalog.resourceVersionI < 9223372036854775807)
    ∧ (applyOp initialCatalog (CatalogOp.invalidateOp 0)).resourceVersionI
        = initialCatalog.resourceVersionI + 1
    ∧ (runOps initialCatalog [CatalogOp.invalidateOp 0]).resourceVersionI
        = 1 + (([CatalogOp.invalidateOp 0] : List CatalogOp).length : Int)
    ∧ (runOps initialCatalog []).resourceVersionI
        < (runOps initialCatalog ([] ++ CatalogOp.invalidateOp 0 :: [])).resourceVersionI := by
  refine ⟨⟨by decide, by decide⟩, ?_, ?_, ?_⟩
  · exact (catalog_version_monotonic_no_wraparound.1 initialCatalog
      (CatalogOp.invalidateOp 0) (by decide) (by decide)).1
  · exact catalog_version_monotonic_no_wraparound.2.1
      [CatalogOp.invalidateOp 0] (by decide)
  · exact catalog_version_monotonic_no_wraparound.2.2.1
      [] (CatalogOp.invalidateOp 0) [] (by decide)

/-- C1 counterexample: with the catalog at its initial version 1, a
Watch whose resourceVersion equals the current version string but whose
TimeoutSeconds pointer is nil crashes on the nil dereference instead of
returning an event-stream handle with a nil error. -/
theorem watch_matching_version_nil_timeout_not_opened :
    formatInt initialCatalog.resourceVersionI = "1"
    ∧ (Watch 0 ⟨"1", none⟩ initialCatalog).1 = WatchOutcome.nilTimeoutPanic
    ∧ (∀ i : Nat, (Watch 0 ⟨"1", none⟩ initialCatalog).1 ≠ WatchOutcome.opened i) := by
  have h1 : (Watch 0 ⟨"1", none⟩ initialCatalog).1 = WatchOutcome.nilTimeoutPanic := by
    decide
  refine ⟨by decide, h1, ?_⟩
  intro i h
  rw [h1] at h
  exact WatchOutcome.noConfusion h

/-- C1 amended: a Watch whose resourceVersion differs from the decimal
string of the current version returns the resource-expired error and
registers no session; a Watch whose resourceVersion matches **and whose
TimeoutSeconds is supplied** returns an event-stream handle and a nil
error, registering one session. -/
theorem watch_version_gate (now : Int) (opts : WatchOptions) (st : CatalogState) :
    (opts.resourceVersion ≠ formatInt st.resourceVersionI →
        (Watch now opts st).1
            = WatchOutcome.expired opts.resourceVersion (formatInt st.resourceVersionI)
          ∧ (Watch now opts st).2 = st)
    ∧ (∀ t : Int, opts.resourceVersion = formatInt st.resourceVersionI →
        opts.timeoutSeconds = some t →
          (Watch now opts st).1 = WatchOutcome.opened st.sessions.length
            ∧ (Watch now opts st).2.sessions
                = st.sessions ++ [⟨now + t, false⟩]) := by
  constructor
  · intro hne
    have hc : formatInt st.resourceVersionI ≠ opts.resourceVersion := Ne.symm hne
    simp [Watch, hc]
  · intro t heq htimeout
    have hc : ¬(formatInt st.resourceVersionI ≠ opts.resourceVersion) := by
      rw [heq]
      exact fun h => h rfl
    simp [Watch, hc, htimeout]

theorem watch_version_gate_witness :
    ((Watch 0 ⟨"2", some 30⟩ initialCatalog).1 = WatchOutcome.expired "2" "1"
        ∧ (Watch 0 ⟨"2", some 30⟩ initialCatalog).2 = initialCatalog)
    ∧ ((Watch 5 ⟨"1", some 30⟩ initialCatalog).1 = WatchOutcome.opened 0
        ∧ (Watch 5 ⟨"1", some 30⟩ initialCatalog).2.sessions = [⟨35, false⟩]) := by
  constructor
  · exact (watch_version_gate 0 ⟨"2", some 30⟩ initialCatalog).1 (by decide)
  · exact (watch_version_gate 5 ⟨"1", some 30⟩ initialCatalog).2 30 (by decide) rfl

/-- C10: a Watch whose resourceVersion matches the catalog's current
version but whose TimeoutSeconds pointer is absent dereferences nil and
crashes; consequently every Watch that returns a handle (with nil
error) had TimeoutSeconds supplied. -/
theorem watch_requires_timeout_pointer :
    (∀ (st : CatalogState) (now : Int),
        (Watch now ⟨formatInt st.resourceVersionI, none⟩ st).1
          = WatchOutcome.nilTimeoutPanic)
    ∧ (∀ (st : CatalogState) (now : Int) (opts : WatchOptions) (i : Nat),
        (Watch now opts st).1 = WatchOutcome.opened i →
          ∃ t, opts.timeoutSeconds = some t) := by
  constructor
  · intro st now
    simp [Watch]
  · intro st now opts i h
    by_cases hc : formatInt st.resourceVersionI ≠ opts.resourceVersion
    · rw [show (Watch now opts st).1
          = WatchOutcome.expired opts.resourceVersion (formatInt st.resourceVersionI)
          by simp [Watch, hc]] at h
      exact WatchOutcome.noConfusion h
    · cases ht : opts.timeoutSeconds with
      | none =>
          rw [show (Watch now opts st).1 = WatchOutcome.nilTimeoutPanic
              by simp [Watch, hc, ht]] at h
          exact WatchOutcome.noConfusion h
      | some t => exact ⟨t, rfl⟩

theorem watch_requires_timeout_pointer_witness :
    (Watch 5 ⟨"1", some 30⟩ initialCatalog).1 = WatchOutcome.opened 0
    ∧ ∃ t, (WatchOptions.mk "1" (some 30)).timeoutSeconds = some t := by
  have h : (Watch 5 ⟨"1", some 30⟩ initialCatalog).1 = WatchOutcome.opened 0 := by
    decide
  exact ⟨h, (watch_requires_timeout_pointer).2 initialCatalog 5 ⟨"1", some 30⟩ 0 h⟩

/-- C5: List always returns a nil error to its caller, and its output
does not depend on the discovery errors at all — whatever (possibly
partial, possibly empty) group and resource data the discovery cache
returned is used as is. -/
theorem list_discovery_error_nonfatal :
    (∀ (inc : Bool) (feed : DiscoveryFeed) (st : CatalogState),
        (listCall inc feed st).1.2 = none)
    ∧ (∀ (inc : Bool) (feed : DiscoveryFeed) (st : CatalogState)
          (e₁ e₂ : Option String),
        listCall inc { feed with groupsErr := e₁, preferredErr := e₂ } st
          = listCall inc feed st) := by
  exact ⟨fun _ _ _ => rfl, fun _ _ _ _ _ => rfl⟩

/-- A sample spec with the given plural name, as
`enumAPIResourcesLocked` would build it (no nested subresources). -/
def sampleSpec (n : String) : APIResourceSpec :=
  .mk ⟨n, "", true, "example.com", "v1", "Kind", ["get"], []⟩ []

/-- The tree built by inserting `pods`, `pods/status`, `pods/scale`. -/
def podsTree : List (String × ArNode) :=
  [sampleSpec "pods", sampleSpec "pods/status", sampleSpec "pods/scale"].foldl
    (fun am ar => arInsert ar (goSplitSlash ar.core.name) am) []

/-- The tree built by inserting only `widgets/status`. -/
def widgetsTree : List (String × ArNode) :=
  arInsert (sampleSpec "widgets/status") (goSplitSlash "widgets/status") []

/-- C6: inserting `pods`, `pods/status`, `pods/scale` (each with a
spec) and emitting yields exactly one top-level spec, named `pods`,
whose nested subresource list consists of specs named `status` and
`scale`; inserting only `widgets/status` (no spec for `widgets`) yields
zero emitted specs. -/
theorem subresource_tree_build_example :
    ((arToList podsTree).map fun s => s.core.name) = ["pods"]
    ∧ ((arToList podsTree).map fun s => s.subResources.map fun t => t.core.name)
        = [["status", "scale"]]
    ∧ ((arToList widgetsTree).map fun s => s.core.name) = [] := by
  have hp : podsTree
      = [("pods", ArNode.mk (some (sampleSpec "pods"))
          [("status", ArNode.mk (some (sampleSpec "pods/status")) []),
           ("scale", ArNode.mk (some (sampleSpec "pods/scale")) [])])] := rfl
  have hw : widgetsTree
      = [("widgets", ArNode.mk none
          [("status", ArNode.mk (some (sampleSpec "widgets/status")) [])])] := rfl
  refine ⟨?_, ?_, ?_⟩ <;>
    simp [hp, hw, arToList, sampleSpec, APIResourceSpec.core, APIResourceSpec.subResources]

/-- The `ServerPreferredResources` feed of a cluster reporting the
subresource-style name `deployments/scale` in group `apps`, version `v1`. -/
def slashFeed : DiscoveryFeed :=
  { groups := []
    resources := []
    preferred := [⟨"apps/v1", [⟨"deployments/scale", "", false, "", "Scale", ["get"]⟩]⟩]
    groupsErr := none
    preferredErr := none }

/-- C8 counterexample: in the flat (sans-subresources) mode, List
passes the discovery-reported resource name through verbatim, so the
discovery name `deployments/scale` yields the emitted object name
`apps:v1:deployments/scale`, which contains a slash. -/
theorem emitted_name_with_slash :
    ((listCall false slashFeed initialCatalog).1.1.items.map fun r => r.metaName)
      = ["apps:v1:deployments/scale"]
    ∧ hasSlash "apps:v1:deployments/scale" = true := by
  constructor
  · decide
  · decide

/-! ## Name shape of emitted resources (C8) -/

theorem hasSlash_append (a b : String) :
    hasSlash (a ++ b) = (hasSlash a || hasSlash b) := by
  by_cases ha : '/' ∈ a.data <;> by_cases hb : '/' ∈ b.data <;>
    simp [hasSlash, String.data_append, ha, hb]

theorem mem_keys_setKey [DecidableEq κ] (k k₂ : κ) (v : ν) (l : List (κ × ν))
    (h : k₂ ∈ (setKey k v l).map Prod.fst) :
    k₂ ∈ l.map Prod.fst ∨ k₂ = k := by
  induction l with
  | nil =>
      simp only [setKey, List.map_cons, List.map_nil, List.mem_singleton] at h
      exact Or.inr h
  | cons hd tl ih =>
      obtain ⟨k₁, v₁⟩ := hd
      by_cases hk : k₁ = k
      · simp only [setKey, if_pos hk, List.map_cons, List.mem_cons] at h
        rcases h with rfl | h
        · exact Or.inl (List.mem_cons_self _ _)
        · exact Or.inl (List.mem_cons_of_mem _ h)
      · simp only [setKey, if_neg hk, List.map_cons, List.mem_cons] at h
        rcases h with rfl | h
        · exact Or.inl (List.mem_cons_self _ _)
        · rcases ih h with h₂ | h₂
          · exact Or.inl (List.mem_cons_of_mem _ h₂)
          · exact Or.inr h₂

theorem mem_keys_arInsert (spec : APIResourceSpec) (path : List String)
    (am : List (String × ArNode)) (k : String)
    (h : k ∈ (arInsert spec path am).map Prod.fst) :
    k ∈ am.map Prod.fst ∨ k ∈ path := by
  match path with
  | [] => exact Or.inl h
  | [seg] =>
      rcases mem_keys_setKey seg k _ am h with h₂ | h₂
      · exact Or.inl h₂
      · exact Or.inr (h₂ ▸ List.mem_cons_self _ _)
  | seg :: seg₂ :: rest =>
      rcases mem_keys_setKey seg k _ am h with h₂ | h₂
      · exact Or.inl h₂
      · exact Or.inr (h₂ ▸ List.mem_cons_self _ _)

theorem mem_keys_arFold (specs : List APIResourceSpec)
    (am₀ : List (String × ArNode)) (k : String)
    (h : k ∈ ((specs.foldl
        (fun am ar => arInsert ar (goSplitSlash ar.core.name) am) am₀).map Prod.fst)) :
    k ∈ am₀.map Prod.fst ∨ ∃ ar ∈ specs, k ∈ goSplitSlash ar.core.name := by
  induction specs generalizing am₀ with
  | nil => exact Or.inl h
  | cons ar rest ih =>
      rcases ih _ h with h₂ | h₂
      · rcases mem_keys_arInsert ar _ am₀ k h₂ with h₃ | h₃
        · exact Or.inl h₃
        · exact Or.inr ⟨ar, List.mem_cons_self _ _, h₃⟩
      · obtain ⟨ar₂, hmem, hk⟩ := h₂
        exact Or.inr ⟨ar₂, List.mem_cons_of_mem _ hmem, hk⟩

theorem arToList_name_mem_keys (am : List (String × ArNode)) :
    ∀ s ∈ arToList am, s.core.name ∈ am.map Prod.fst := by
  induction am with
  | nil => simp [arToList]
  | cons hd tl ih =>
      obtain ⟨seg, node⟩ := hd
      obtain ⟨ospec, children⟩ := node
      intro s hs
      cases ospec with
      | none =>
          rw [show arToList ((seg, ArNode.mk none children) :: tl) = arToList tl
              from by simp [arToList]] at hs
          exact List.mem_cons_of_mem _ (ih s hs)
      | some sp =>
          obtain ⟨core, subs⟩ := sp
          rw [show arToList ((seg, ArNode.mk (some (.mk core subs)) children) :: tl)
              = APIResourceSpec.mk { core with name := seg } (subs ++ arToList children)
                :: arToList tl from by simp [arToList]] at hs
          rcases List.mem_cons.mp hs with rfl | hs₂
          · exact List.mem_cons_self _ _
          · exact List.mem_cons_of_mem _ (ih s hs₂)

/-- C8 amended: every object name emitted by List is exactly the
colon-joined composite `group:version:resourceName` of the parsed group
version and the spec's name (group and version never contain a slash,
by construction of the parser).  In the subresource-aware mode the
emitted name never contains a slash, because top-level names are
segments of a slash split; in the flat mode the name contains a slash
exactly when the discovery-reported resource name does. -/
theorem emitted_names_colon_composite :
    (∀ (gl : List APIResourceListFeed) (fwd : FwdMap) (rv : String),
        ∀ item ∈ listSansSubresources gl fwd rv,
          ∃ g v, item.metaName = g ++ ":" ++ v ++ ":" ++ item.spec.core.name
            ∧ hasSlash g = false ∧ hasSlash v = false
            ∧ hasSlash item.metaName = hasSlash item.spec.core.name)
    ∧ (∀ (groups : List APIGroupFeed) (rls : List APIResourceListFeed)
          (fwd : FwdMap) (rv : String),
        ∀ item ∈ listWithSubresources groups rls fwd rv,
          ∃ g v, item.metaName = g ++ ":" ++ v ++ ":" ++ item.spec.core.name
            ∧ hasSlash item.metaName = false) := by
  constructor
  · intro gl fwd rv item hmem
    unfold listSansSubresources at hmem
    rw [List.mem_flatten] at hmem
    obtain ⟨l, hl, hitem⟩ := hmem
    rw [List.mem_filterMap] at hl
    obtain ⟨group, _, hsome⟩ := hl
    cases hparse : parseGroupVersion group.groupVersion with
    | none => rw [hparse] at hsome; exact absurd hsome (by simp)
    | some gv =>
        obtain ⟨g, v⟩ := gv
        rw [hparse] at hsome
        simp only [Option.some.injEq] at hsome
        subst hsome
        rw [List.mem_map] at hitem
        obtain ⟨s, _, rfl⟩ := hitem
        obtain ⟨hg, hv⟩ := parseGroupVersion_no_slash _ _ _ hparse
        refine ⟨g, v, rfl, hg, hv, ?_⟩
        show hasSlash (g ++ ":" ++ v ++ ":" ++ s.core.name) = hasSlash s.core.name
        simp [hasSlash_append, hg, hv, show hasSlash ":" = false from rfl]
  · intro groups rls fwd rv item hmem
    unfold listWithSubresources at hmem
    rw [List.mem_flatten] at hmem
    obtain ⟨l, hl, hitem⟩ := hmem
    rw [List.mem_filterMap] at hl
    obtain ⟨group, _, hsome⟩ := hl
    cases hparse : parseGroupVersion group.groupVersion with
    | none => rw [hparse] at hsome; exact absurd hsome (by simp)
    | some gv =>
        obtain ⟨g, v⟩ := gv
        rw [hparse] at hsome
        have hsome₂ : (if (lookupKey g (groups.foldl
              (fun m ag => setKey ag.name ag.preferredVersion m) [])).getD "" ≠ v
            then (none : Option (List APIResource))
            else some ((arToList (List.foldl
                (fun am ar => arInsert ar (goSplitSlash ar.core.name) am) []
                (enumAPIResourcesLocked fwd (g, v) group.apiResources))).map
              fun spec => specComplete spec rv (g, v))) = some l := hsome
        by_cases hver : (lookupKey g (groups.foldl
            (fun m ag => setKey ag.name ag.preferredVersion m) [])).getD "" ≠ v
        · rw [if_pos hver] at hsome₂
          exact absurd hsome₂ (by simp)
        · rw [if_neg hver] at hsome₂
          simp only [Option.some.injEq] at hsome₂
          clear hsome
          subst hsome₂
          rw [List.mem_map] at hitem
          obtain ⟨s, hsmem, rfl⟩ := hitem
          obtain ⟨hg, hv⟩ := parseGroupVersion_no_slash _ _ _ hparse
          have hname := arToList_name_mem_keys _ s hsmem
          rcases mem_keys_arFold _ [] _ hname with h₂ | h₂
          · exact absurd h₂ (by simp)
          · obtain ⟨ar, _, hk⟩ := h₂
            have hns : hasSlash s.core.name = false :=
              goSplitSlash_no_slash ar.core.name _ hk
            refine ⟨g, v, rfl, ?_⟩
            show hasSlash (g ++ ":" ++ v ++ ":" ++ s.core.name) = false
            simp [hasSlash_append, hg, hv, hns, show hasSlash ":" = false from rfl]

theorem emitted_names_colon_composite_witness :
    ∃ g v, ("apps:v1:deployments/scale" : String)
        = g ++ ":" ++ v ++ ":" ++ "deployments/scale"
      ∧ hasSlash g = false ∧ hasSlash v = false
      ∧ hasSlash "apps:v1:deployments/scale"
          = hasSlash ("deployments/scale" : String) := by
  obtain ⟨g, v, h1, h2, h3, h4⟩ :=
    emitted_names_colon_composite.1 slashFeed.preferred [] "2"
      ⟨"apps:v1:deployments/scale", "2",
        .mk ⟨"deployments/scale", "", false, "apps", "v1", "Scale", ["get"], []⟩ []⟩
      (List.mem_singleton.mpr rfl)
  exact ⟨g, v, h1, h2, h3, h4⟩

/-! ## The watch handle's delivery behavior (C7) -/

/-- The payload-bearing event kinds of the watch protocol
(`watch.Event` types). -/
inductive WatchEventType : Type where
  | added
  | modified
  | deleted
  | bookmark
  | errorEvent
deriving DecidableEq, Repr

/-- An operation a producer can perform on the delivery side of a
result channel. -/
inductive ChanOp : Type where
  | send (e : WatchEventType)
  | closeChan
deriving DecidableEq, Repr

/-- The channel operations performed on `rw.results` over a
`resourceWatch`'s whole lifetime: the goroutine spawned by Watch
(resources.go:269) blocks until the session context ends and then
closes the channel; no code path sends an event. -/
def resourceWatchChanOps : List ChanOp := [ChanOp.closeChan]

/-- Whether a session's context is done.  Watch builds the context with
`context.WithTimeout(rlw.ctx, timeout)` and registers its cancel, so it
ends when the owning connection's context ends, when the cancel has
been called (by a List's cancel-all, the relist scheduler, or Stop), or
when the deadline has elapsed. -/
def sessionDone (parentDone : Bool) (s : WatchSession) (now : Int) : Bool :=
  parentDone || s.cancelled || decide (s.deadline ≤ now)

/-- C7: a watch handle never delivers an object event — the producer
side performs no send, only the close — and the close happens exactly
when the connection's context ends, the session was cancelled (as a
subsequent List does to every tracked session), or the deadline has
elapsed. -/
theorem watch_delivers_only_end_of_stream :
    (∀ e : WatchEventType, ChanOp.send e ∉ resourceWatchChanOps)
    ∧ (∀ (parentDone : Bool) (s : WatchSession) (now : Int),
        sessionDone parentDone s now = true
          ↔ (parentDone = true ∨ s.cancelled = true ∨ s.deadline ≤ now))
    ∧ (∀ (inc : Bool) (feed : DiscoveryFeed) (st : CatalogState),
        ∀ s ∈ ((listCall inc feed st).2).sessions, s.cancelled = true) := by
  refine ⟨?_, ?_, ?_⟩
  · intro e h
    simp [resourceWatchChanOps] at h
  · intro p s now
    simp [sessionDone, or_assoc]
  · intro inc feed st s hs
    simp only [listCall] at hs
    rw [List.mem_map] at hs
    obtain ⟨s₀, _, rfl⟩ := hs
    rfl

theorem watch_delivers_only_end_of_stream_witness :
    (⟨35, true⟩ : WatchSession).cancelled = true :=
  watch_delivers_only_end_of_stream.2.2 false ⟨[], [], [], none, none⟩
    { initialCatalog with sessions := [⟨35, false⟩] }
    ⟨35, true⟩ (List.mem_singleton.mpr rfl)

/-! ## The debounce / relist scheduler (C4) -/

/-- A scheduler-relevant event: an invalidation (`Invalidate` when
`upd = none`, `InvalidateWithDefiner` otherwise) at a time, or one pass
of the debounce scheduler's check at a time. -/
inductive SchedEvent : Type where
  | inv (now : Int) (upd : Option DefinerUpdate)
  | check (now : Int)

def schedTime : SchedEvent → Int
  | .inv t _ => t
  | .check t => t

/-- The times of the invalidation events of a trace, in order. -/
def invTimes : List SchedEvent → List Int
  | [] => []
  | .inv t _ :: rest => t :: invTimes rest
  | .check _ :: rest => invTimes rest

def schedStep (st : CatalogState) : SchedEvent → CatalogState × Bool
  | .inv t u => (invalidateWithDefinerLocked t u st, false)
  | .check t => schedulerCheck t st

/-- Run a trace of scheduler-relevant events, counting the relist waves
(scheduler firings). -/
def schedRun (st : CatalogState) : List SchedEvent → CatalogState × Nat
  | [] => (st, 0)
  | e :: rest =>
      let p := schedStep st e
      let q := schedRun p.1 rest
      (q.1, (if p.2 then 1 else 0) + q.2)

theorem schedRun_append (st : CatalogState) (l₁ l₂ : List SchedEvent) :
    schedRun st (l₁ ++ l₂)
      = ((schedRun (schedRun st l₁).1 l₂).1,
          (schedRun st l₁).2 + (schedRun (schedRun st l₁).1 l₂).2) := by
  induction l₁ generalizing st with
  | nil => simp [schedRun]
  | cons e rest ih =>
      have h1 : schedRun st ((e :: rest) ++ l₂)
          = ((schedRun (schedStep st e).1 (rest ++ l₂)).1,
              (if (schedStep st e).2 then 1 else 0)
                + (schedRun (schedStep st e).1 (rest ++ l₂)).2) := rfl
      have h2 : schedRun st (e :: rest)
          = ((schedRun (schedStep st e).1 rest).1,
              (if (schedStep st e).2 then 1 else 0)
                + (schedRun (schedStep st e).1 rest).2) := rfl
      rw [h1, h2, ih]
      simp [Nat.add_assoc]

theorem invTimes_mem_times (l : List SchedEvent) (x : Int) (h : x ∈ invTimes l) :
    x ∈ l.map schedTime := by
  induction l with
  | nil => simp [invTimes] at h
  | cons e rest ih =>
      cases e with
      | inv t u =>
          simp only [invTimes, List.mem_cons] at h
          rcases h with rfl | h
          · simp [schedTime]
          · simp only [List.map_cons, List.mem_cons]
            exact Or.inr (ih h)
      | check t =>
          simp only [invTimes] at h
          simp only [List.map_cons, List.mem_cons]
          exact Or.inr (ih h)

theorem invTimes_append (l₁ l₂ : List SchedEvent) :
    invTimes (l₁ ++ l₂) = invTimes l₁ ++ invTimes l₂ := by
  induction l₁ with
  | nil => simp [invTimes]
  | cons e rest ih => cases e <;> simp [invTimes, ih]

theorem schedRun_checks_only (l : List SchedEvent) :
    ∀ st : CatalogState, st.needRelist = false → invTimes l = [] →
      schedRun st l = (st, 0) := by
  induction l with
  | nil => intro st _ _; rfl
  | cons e rest ih =>
      intro st h hi
      cases e with
      | inv t u => simp [invTimes] at hi
      | check t =>
          have hstep : schedStep st (.check t) = (st, false) := by
            simp [schedStep, schedulerCheck, h]
          simp [schedRun, hstep, ih st h (by simpa [invTimes] using hi)]

theorem invalidate_sets_flag (t : Int) (u : Option DefinerUpdate) (st : CatalogState) :
    (invalidateWithDefinerLocked t u st).needRelist = true
    ∧ (invalidateWithDefinerLocked t u st).relistAfter = t + 20 := by
  cases u <;> simp [invalidateWithDefinerLocked]

/-- During a burst (state already stale with deadline `tPrev + 20`,
subsequent events in time order, each further invalidation landing
inside the window open at the previous one), the scheduler fires at
most once over the remaining trace: zero times leaving the staleness
flag set, or exactly once, after which content is no longer stale and
every tracked session has been cancelled. -/
theorem schedRun_burst_aux (trace : List SchedEvent) :
    ∀ (st : CatalogState) (tPrev : Int),
      st.needRelist = true →
      st.relistAfter = tPrev + 20 →
      List.Pairwise (· ≤ ·) (tPrev :: trace.map schedTime) →
      List.Chain' (fun a b => b < a + 20) (tPrev :: invTimes trace) →
      ((schedRun st trace).2 = 0 ∧ (schedRun st trace).1.needRelist = true)
      ∨ ((schedRun st trace).2 = 1 ∧ (schedRun st trace).1.needRelist = false
          ∧ ∀ s ∈ (schedRun st trace).1.sessions, s.cancelled = true) := by
  induction trace with
  | nil => intro st tPrev h1 _ _ _; exact Or.inl ⟨rfl, h1⟩
  | cons e rest ih =>
      intro st tPrev h1 h2 hp hc
      cases e with
      | inv t u =>
          have hn1 := (invalidate_sets_flag t u st).1
          have ha1 := (invalidate_sets_flag t u st).2
          have hp₂ : List.Pairwise (· ≤ ·) (t :: rest.map schedTime) := by
            have := List.pairwise_cons.mp hp
            simpa [schedTime] using this.2
          have hc₂ : List.Chain' (fun a b => b < a + 20) (t :: invTimes rest) := by
            have : invTimes (SchedEvent.inv t u :: rest) = t :: invTimes rest := rfl
            rw [this] at hc
            exact hc.tail
          have hres := ih (invalidateWithDefinerLocked t u st) t hn1 ha1 hp₂ hc₂
          have hrw : schedRun st (SchedEvent.inv t u :: rest)
              = ((schedRun (invalidateWithDefinerLocked t u st) rest).1,
                  (schedRun (invalidateWithDefinerLocked t u st) rest).2) := by
            simp [schedRun, schedStep]
          rw [hrw]
          simpa using hres
      | check t =>
          by_cases hfire : t < st.relistAfter
          · have hstep : schedStep st (.check t) = (st, false) := by
              simp [schedStep, schedulerCheck, h1, hfire]
            have hp₂ : List.Pairwise (· ≤ ·) (tPrev :: rest.map schedTime) := by
              refine List.Pairwise.sublist ?_ hp
              exact List.cons_sublist_cons.mpr (by simp)
            have hc₂ : List.Chain' (fun a b => b < a + 20) (tPrev :: invTimes rest) := hc
            have hres := ih st tPrev h1 h2 hp₂ hc₂
            have hrw : schedRun st (SchedEvent.check t :: rest)
                = ((schedRun st rest).1, (schedRun st rest).2) := by
              simp [schedRun, hstep]
            rw [hrw]
            simpa using hres
          · have hstep : schedStep st (.check t)
                = ({ st with
                      sessions := st.sessions.map (fun s => { s with cancelled := true })
                      needRelist := false }, true) := by
              simp [schedStep, schedulerCheck, h1, hfire]
            cases hit : invTimes rest with
            | nil =>
                have hrest := schedRun_checks_only rest
                  { st with
                      sessions := st.sessions.map (fun s => { s with cancelled := true })
                      needRelist := false } rfl hit
                refine Or.inr ?_
                have hrw : schedRun st (SchedEvent.check t :: rest)
                    = ((schedRun { st with
                          sessions := st.sessions.map (fun s => { s with cancelled := true })
                          needRelist := false } rest).1,
                        1 + (schedRun { st with
                          sessions := st.sessions.map (fun s => { s with cancelled := true })
                          needRelist := false } rest).2) := by
                  simp [schedRun, hstep]
                rw [hrw, hrest]
                refine ⟨rfl, rfl, ?_⟩
                intro s hs
                rw [List.mem_map] at hs
                obtain ⟨s₀, _, rfl⟩ := hs
                rfl
            | cons tI tis =>
                exfalso
                have htI : tI ∈ rest.map schedTime :=
                  invTimes_mem_times rest tI (hit ▸ List.mem_cons_self _ _)
                have httI : t ≤ tI := by
                  have := (List.pairwise_cons.mp hp).2
                  have h₂ := (List.pairwise_cons.mp this).1
                  exact h₂ tI htI
                have htIlt : tI < tPrev + 20 := by
                  have : invTimes (SchedEvent.check t :: rest) = tI :: tis := by
                    simpa [invTimes] using hit
                  rw [this] at hc
                  exact (List.chain'_cons.mp hc).1
                rw [h2] at hfire
                omega

/-- The trace of a burst split at its first invalidation. -/
theorem exists_first_inv (trace : List SchedEvent) (hN : invTimes trace ≠ []) :
    ∃ pre t u rest, trace = pre ++ SchedEvent.inv t u :: rest ∧ invTimes pre = [] := by
  induction trace with
  | nil => exact absurd rfl hN
  | cons e rest ih =>
      cases e with
      | inv t u => exact ⟨[], t, u, rest, rfl, rfl⟩
      | check t =>
          obtain ⟨pre, t₂, u₂, rest₂, heq, hpre⟩ := ih (by simpa [invTimes] using hN)
          exact ⟨SchedEvent.check t :: pre, t₂, u₂, rest₂, by rw [heq]; rfl,
            by simpa [invTimes] using hpre⟩

/-- C4: every invalidation sets the relist deadline 20 seconds after
the call and marks content stale; and for a burst of N >= 1
invalidations, each issued within the window pushed out by the
previous one, the debounce scheduler performs exactly one relist wave
over the whole episode — the one check past the final deadline cancels
every tracked session and clears the staleness flag, and later checks
fire nothing — not N waves. -/
theorem debounce_coalesces_bursts
    (st₀ : CatalogState) (trace : List SchedEvent) (T : Int)
    (posts : List SchedEvent)
    (hstart : st₀.needRelist = false)
    (hchrono : List.Pairwise (· ≤ ·) (trace.map schedTime))
    (hburst : List.Chain' (fun a b => b < a + 20) (invTimes trace))
    (hN : invTimes trace ≠ [])
    (hT : (schedRun st₀ trace).1.relistAfter ≤ T)
    (hposts : invTimes posts = []) :
    (∀ (now : Int) (upd : Option DefinerUpdate) (st : CatalogState),
        (invalidateWithDefinerLocked now upd st).relistAfter = now + 20
          ∧ (invalidateWithDefinerLocked now upd st).needRelist = true)
    ∧ (schedRun st₀ (trace ++ SchedEvent.check T :: posts)).2 = 1
    ∧ (∀ s ∈ (schedRun st₀ (trace ++ SchedEvent.check T :: posts)).1.sessions,
        s.cancelled = true) := by
  refine ⟨fun now upd st => ⟨(invalidate_sets_flag now upd st).2,
    (invalidate_sets_flag now upd st).1⟩, ?_⟩
  obtain ⟨pre, t, u, rest, rfl, hpre⟩ := exists_first_inv trace hN
  have hpreRun : schedRun st₀ pre = (st₀, 0) :=
    schedRun_checks_only pre st₀ hstart hpre
  set st₁ := invalidateWithDefinerLocked t u st₀ with hst₁
  have hn1 := (invalidate_sets_flag t u st₀).1
  have ha1 := (invalidate_sets_flag t u st₀).2
  have hp₂ : List.Pairwise (· ≤ ·) (t :: rest.map schedTime) := by
    have hsub : List.Sublist ((SchedEvent.inv t u :: rest).map schedTime)
        ((pre ++ SchedEvent.inv t u :: rest).map schedTime) := by
      rw [List.map_append]
      exact List.sublist_append_right _ _
    have := List.Pairwise.sublist hsub hchrono
    simpa [schedTime] using this
  have hc₂ : List.Chain' (fun a b => b < a + 20) (t :: invTimes rest) := by
    have : invTimes (pre ++ SchedEvent.inv t u :: rest) = t :: invTimes rest := by
      rw [invTimes_append, hpre]
      rfl
    rwa [this] at hburst
  have haux := schedRun_burst_aux rest st₁ t hn1 ha1 hp₂ hc₂
  -- the run over the burst trace
  have htrace : schedRun st₀ (pre ++ SchedEvent.inv t u :: rest)
      = ((schedRun st₁ rest).1, (schedRun st₁ rest).2) := by
    rw [schedRun_append, hpreRun]
    simp [schedRun, schedStep, hst₁]
  have hfull : schedRun st₀ ((pre ++ SchedEvent.inv t u :: rest)
        ++ SchedEvent.check T :: posts)
      = ((schedRun (schedRun st₁ rest).1 (SchedEvent.check T :: posts)).1,
          (schedRun st₁ rest).2
            + (schedRun (schedRun st₁ rest).1 (SchedEvent.check T :: posts)).2) := by
    rw [schedRun_append, htrace]
  rw [htrace] at hT
  have hT₂ : (schedRun st₁ rest).1.relistAfter ≤ T := hT
  rcases haux with ⟨hf0, hnr⟩ | ⟨hf1, hnr, hcanc⟩
  · -- no wave yet: the appended check fires the single wave
    have hfire : ¬ T < (schedRun st₁ rest).1.relistAfter := by omega
    have hstep : schedStep (schedRun st₁ rest).1 (.check T)
        = ({ (schedRun st₁ rest).1 with
              sessions := (schedRun st₁ rest).1.sessions.map
                (fun s => { s with cancelled := true })
              needRelist := false }, true) := by
      simp [schedStep, schedulerCheck, hnr, hfire]
    have hpostsRun := schedRun_checks_only posts
      { (schedRun st₁ rest).1 with
          sessions := (schedRun st₁ rest).1.sessions.map
            (fun s => { s with cancelled := true })
          needRelist := false } rfl hposts
    have hck : schedRun (schedRun st₁ rest).1 (SchedEvent.check T :: posts)
        = ({ (schedRun st₁ rest).1 with
              sessions := (schedRun st₁ rest).1.sessions.map
                (fun s => { s with cancelled := true })
              needRelist := false }, 1) := by
      simp [schedRun, hstep, hpostsRun]
    rw [hfull, hck]
    refine ⟨by omega, ?_⟩
    intro s hs
    rw [List.mem_map] at hs
    obtain ⟨s₀, _, rfl⟩ := hs
    rfl
  · -- the wave already happened inside the trace; nothing more fires
    have hstep : schedStep (schedRun st₁ rest).1 (.check T)
        = ((schedRun st₁ rest).1, false) := by
      simp [schedStep, schedulerCheck, hnr]
    have hpostsRun := schedRun_checks_only posts (schedRun st₁ rest).1 hnr hposts
    have hck : schedRun (schedRun st₁ rest).1 (SchedEvent.check T :: posts)
        = ((schedRun st₁ rest).1, 0) := by
      simp [schedRun, hstep, hpostsRun]
    rw [hfull, hck]
    exact ⟨by omega, fun s hs => hcanc s hs⟩

theorem debounce_coalesces_bursts_witness :
    (schedRun initialCatalog
        ([SchedEvent.inv 0 none, SchedEvent.inv 5 none, SchedEvent.check 6,
          SchedEvent.inv 10 none] ++ SchedEvent.check 40 :: [SchedEvent.check 50])).2
      = 1 :=
  (debounce_coalesces_bursts initialCatalog
    [SchedEvent.inv 0 none, SchedEvent.inv 5 none, SchedEvent.check 6,
      SchedEvent.inv 10 none] 40 [SchedEvent.check 50]
    rfl
    (by decide)
    (by
      show List.Chain' (fun a b => b < a + 20) [0, 5, 10]
      rw [List.chain'_cons, List.chain'_cons]
      exact ⟨by omega, by omega, by simp⟩)
    (by decide)
    (by decide)
    rfl).2.1

/-! ## Association-map lemmas for the definer index (C3) -/

theorem lookupKey_eq_none_iff [DecidableEq κ] (k : κ) (l : List (κ × ν)) :
    lookupKey k l = none ↔ k ∉ l.map Prod.fst := by
  induction l with
  | nil => simp [lookupKey]
  | cons hd tl ih =>
      obtain ⟨k₁, v₁⟩ := hd
      by_cases h : k₁ = k
      · simp [lookupKey, h]
      · simp [lookupKey, h, ih, Ne.symm h]

theorem lookupKey_some_mem [DecidableEq κ] (k : κ) (v : ν) (l : List (κ × ν))
    (h : lookupKey k l = some v) : (k, v) ∈ l := by
  induction l with
  | nil => simp [lookupKey] at h
  | cons hd tl ih =>
      obtain ⟨k₁, v₁⟩ := hd
      by_cases hk : k₁ = k
      · rw [show lookupKey k ((k₁, v₁) :: tl) = some v₁
          from by simp [lookupKey, hk]] at h
        simp only [Option.some.injEq] at h
        subst h
        subst hk
        exact List.mem_cons_self _ _
      · rw [show lookupKey k ((k₁, v₁) :: tl) = lookupKey k tl
          from by simp [lookupKey, hk]] at h
        exact List.mem_cons_of_mem _ (ih h)

theorem lookupKey_append [DecidableEq κ] (k : κ) (l₁ l₂ : List (κ × ν)) :
    lookupKey k (l₁ ++ l₂)
      = match lookupKey k l₁ with
        | some v => some v
        | none => lookupKey k l₂ := by
  induction l₁ with
  | nil => simp [lookupKey]
  | cons hd tl ih =>
      obtain ⟨k₁, v₁⟩ := hd
      by_cases h : k₁ = k <;> simp [lookupKey, h, ih]

theorem lookupKey_map_fun [DecidableEq κ] (g : κ → ν) (l : List κ) (k : κ) :
    lookupKey k (l.map fun r => (r, g r))
      = if k ∈ l then some (g k) else none := by
  induction l with
  | nil => simp [lookupKey]
  | cons a tl ih =>
      by_cases h : a = k
      · subst h
        simp [lookupKey]
      · simp [lookupKey, h, ih, Ne.symm h]

theorem keys_filterMap_subset [DecidableEq κ] (f : κ × ν → Option (κ × ν))
    (hf : ∀ p q, f p = some q → q.1 = p.1) (l : List (κ × ν)) :
    ∀ k ∈ (l.filterMap f).map Prod.fst, k ∈ l.map Prod.fst := by
  intro k hk
  rw [List.mem_map] at hk
  obtain ⟨q, hq, rfl⟩ := hk
  rw [List.mem_filterMap] at hq
  obtain ⟨p, hp, hfp⟩ := hq
  rw [List.mem_map]
  exact ⟨p, hp, (hf p q hfp).symm⟩

theorem lookupKey_filterMap [DecidableEq κ] (f : κ × ν → Option (κ × ν))
    (hf : ∀ p q, f p = some q → q.1 = p.1) (l : List (κ × ν))
    (hnd : (l.map Prod.fst).Nodup) (k : κ) :
    lookupKey k (l.filterMap f)
      = match lookupKey k l with
        | none => none
        | some v => (f (k, v)).map Prod.snd := by
  induction l with
  | nil => simp [lookupKey]
  | cons hd tl ih =>
      obtain ⟨k₁, v₁⟩ := hd
      simp only [List.map_cons, List.nodup_cons] at hnd
      obtain ⟨hknotin, hndtl⟩ := hnd
      by_cases hk : k₁ = k
      · subst hk
        rw [show lookupKey k₁ ((k₁, v₁) :: tl) = some v₁
            from by simp [lookupKey]]
        cases hf₁ : f (k₁, v₁) with
        | some q =>
            have hq1 : q.1 = k₁ := hf _ q hf₁
            rw [show List.filterMap f ((k₁, v₁) :: tl) = q :: List.filterMap f tl
                from by rw [List.filterMap_cons, hf₁]]
            obtain ⟨q1, q2⟩ := q
            simp only at hq1
            subst hq1
            simp [lookupKey, hf₁]
        | none =>
            rw [show List.filterMap f ((k₁, v₁) :: tl) = List.filterMap f tl
                from by rw [List.filterMap_cons, hf₁]]
            have : lookupKey k₁ (List.filterMap f tl) = none := by
              rw [lookupKey_eq_none_iff]
              intro hmem
              exact hknotin (keys_filterMap_subset f hf tl k₁ hmem)
            simp [this, hf₁]
      · rw [show lookupKey k ((k₁, v₁) :: tl) = lookupKey k tl
            from by simp [lookupKey, hk]]
        cases hf₁ : f (k₁, v₁) with
        | some q =>
            have hq1 : q.1 = k₁ := hf _ _ hf₁
            rw [show List.filterMap f ((k₁, v₁) :: tl) = q :: List.filterMap f tl
                from by rw [List.filterMap_cons, hf₁]]
            rw [show lookupKey k (q :: List.filterMap f tl)
                = lookupKey k (List.filterMap f tl)
                from by
                  obtain ⟨q1, q2⟩ := q
                  simp only at hq1
                  subst hq1
                  simp [lookupKey, hk]]
            exact ih hndtl
        | none =>
            rw [show List.filterMap f ((k₁, v₁) :: tl) = List.filterMap f tl
                from by rw [List.filterMap_cons, hf₁]]
            exact ih hndtl

theorem keys_setKey [DecidableEq κ] (k : κ) (v : ν) (l : List (κ × ν)) :
    (setKey k v l).map Prod.fst
      = if k ∈ l.map Prod.fst then l.map Prod.fst else l.map Prod.fst ++ [k] := by
  induction l with
  | nil => simp [setKey]
  | cons hd tl ih =>
      obtain ⟨k₁, v₁⟩ := hd
      by_cases h : k₁ = k
      · subst h
        simp [setKey]
      · simp only [setKey, if_neg h, List.map_cons, ih]
        by_cases hm : k ∈ tl.map Prod.fst
        · simp [hm, Ne.symm h]
        · simp [hm, Ne.symm h]

theorem keysNodup_setKey [DecidableEq κ] (k : κ) (v : ν) (l : List (κ × ν))
    (h : (l.map Prod.fst).Nodup) : ((setKey k v l).map Prod.fst).Nodup := by
  rw [keys_setKey]
  by_cases hm : k ∈ l.map Prod.fst
  · simpa [hm] using h
  · rw [if_neg hm, ← List.concat_eq_append]
    exact List.Nodup.concat hm h

theorem lookupKey_of_mem_nodup [DecidableEq κ] (k : κ) (v : ν) (l : List (κ × ν))
    (hmem : (k, v) ∈ l) (hnd : (l.map Prod.fst).Nodup) : lookupKey k l = some v := by
  induction l with
  | nil => simp at hmem
  | cons hd tl ih =>
      obtain ⟨k₁, v₁⟩ := hd
      simp only [List.map_cons, List.nodup_cons] at hnd
      rcases List.mem_cons.mp hmem with heq | hmem₂
      · cases heq
        simp [lookupKey]
      · by_cases hk : k₁ = k
        · subst hk
          exfalso
          apply hnd.1
          rw [List.mem_map]
          exact ⟨(k₁, v), hmem₂, rfl⟩
        · rw [show lookupKey k ((k₁, v₁) :: tl) = lookupKey k tl
              from by simp [lookupKey, hk]]
          exact ih hmem₂ hnd.2

theorem keys_filterMap_sublist [DecidableEq κ] (f : κ × ν → Option (κ × ν))
    (hf : ∀ p q, f p = some q → q.1 = p.1) (l : List (κ × ν)) :
    List.Sublist ((l.filterMap f).map Prod.fst) (l.map Prod.fst) := by
  induction l with
  | nil => simp
  | cons hd tl ih =>
      rw [List.filterMap_cons]
      cases hfd : f hd with
      | none =>
          simp only [List.map_cons]
          exact ih.trans (List.sublist_cons_self _ _)
      | some q =>
          simp only [List.map_cons]
          rw [hf hd q hfd]
          exact List.Sublist.cons₂ _ ih

theorem keys_delKey_sublist [DecidableEq κ] (k : κ) (l : List (κ × ν)) :
    List.Sublist ((delKey k l).map Prod.fst) (l.map Prod.fst) := by
  induction l with
  | nil => simp [delKey]
  | cons hd tl ih =>
      obtain ⟨k₁, v₁⟩ := hd
      by_cases h : k₁ = k
      · simp only [delKey, if_pos h, List.map_cons]
        exact ih.trans (List.sublist_cons_self _ _)
      · simp only [delKey, if_neg h, List.map_cons]
        exact List.Sublist.cons₂ _ ih

/-! ## The definer-index invariant (C3) -/

/-- The deduplicated new resource set installed for the definer. -/
def sdNewD (newSet : List GroupVersionResource) : List GroupVersionResource :=
  newSet.dedup

/-- The definer's previous resource set. -/
def sdOld (id : ObjectID) (rev : RevMap) : List GroupVersionResource :=
  (lookupKey id rev).getD []

/-- Resources no longer defined by the definer. -/
def sdRemoved (id : ObjectID) (newSet : List GroupVersionResource) (rev : RevMap) :
    List GroupVersionResource :=
  (sdOld id rev).filter (fun r => r ∉ sdNewD newSet)

/-- Resources newly defined by the definer. -/
def sdAdded (id : ObjectID) (newSet : List GroupVersionResource) (rev : RevMap) :
    List GroupVersionResource :=
  (sdNewD newSet).filter (fun r => r ∉ sdOld id rev)

/-- Newly defined resources with no forward entry yet. -/
def sdFresh (id : ObjectID) (newSet : List GroupVersionResource) (fwd : FwdMap)
    (rev : RevMap) : List GroupVersionResource :=
  (sdAdded id newSet rev).filter (fun r => (lookupKey r fwd).isNone)

/-- Well-formedness of the definer index: the forward and reverse
mappings mirror each other, neither retains an entry whose set is
empty, and neither holds duplicate keys (a Go map cannot). -/
def IndexWF (fwd : FwdMap) (rev : RevMap) : Prop :=
  (∀ (d : ObjectID) (r : GroupVersionResource),
      (∃ s, lookupKey r fwd = some s ∧ d ∈ s)
        ↔ (∃ t, lookupKey d rev = some t ∧ r ∈ t))
  ∧ (∀ r s, lookupKey r fwd = some s → s ≠ [])
  ∧ (∀ d t, lookupKey d rev = some t → t ≠ [])
  ∧ (fwd.map Prod.fst).Nodup
  ∧ (rev.map Prod.fst).Nodup

theorem setDefinerLocked_preserves (id : ObjectID)
    (newSet : List GroupVersionResource) (fwd : FwdMap) (rev : RevMap)
    (hwf : IndexWF fwd rev) :
    IndexWF (setDefinerLocked id newSet fwd rev).1
      (setDefinerLocked id newSet fwd rev).2 := by
  obtain ⟨hiff, hfne, hrne, hfnd, hrnd⟩ := hwf
  have hstep_key : ∀ p q,
      setDefinerStep id (sdRemoved id newSet rev) (sdAdded id newSet rev) p = some q →
        q.1 = p.1 := by
    intro p q h
    simp only [setDefinerStep] at h
    split at h
    · split at h
      · exact absurd h (by simp)
      · simp only [Option.some.injEq] at h
        rw [← h]
    · split at h <;>
        · simp only [Option.some.injEq] at h
          rw [← h]
  have hfwdEq : (setDefinerLocked id newSet fwd rev).1
      = fwd.filterMap (setDefinerStep id (sdRemoved id newSet rev) (sdAdded id newSet rev))
        ++ (sdFresh id newSet fwd rev).map (fun r => (r, [id])) := rfl
  have hrevEq : (setDefinerLocked id newSet fwd rev).2
      = if sdNewD newSet = [] then delKey id rev
        else setKey id (sdNewD newSet) rev := rfl
  have hlookF_none : ∀ r, lookupKey r fwd = none →
      lookupKey r (setDefinerLocked id newSet fwd rev).1
        = if r ∈ sdFresh id newSet fwd rev then some [id] else none := by
    intro r hl
    rw [hfwdEq, lookupKey_append, lookupKey_filterMap _ hstep_key fwd hfnd, hl,
      lookupKey_map_fun]
  have hlookF_some : ∀ r s, lookupKey r fwd = some s →
      lookupKey r (setDefinerLocked id newSet fwd rev).1
        = (setDefinerStep id (sdRemoved id newSet rev) (sdAdded id newSet rev)
            (r, s)).map Prod.snd := by
    intro r s hl
    rw [hfwdEq, lookupKey_append, lookupKey_filterMap _ hstep_key fwd hfnd, hl]
    cases hstep : setDefinerStep id (sdRemoved id newSet rev) (sdAdded id newSet rev)
        (r, s) with
    | some q => simp [hstep]
    | none =>
        have hrf : r ∉ sdFresh id newSet fwd rev := by
          intro hmem
          have h2 := (List.mem_filter.mp hmem).2
          rw [hl] at h2
          simp at h2
        simp [hstep, lookupKey_map_fun, hrf]
  have hlookR : ∀ d : ObjectID,
      lookupKey d (setDefinerLocked id newSet fwd rev).2
        = if d = id then (if sdNewD newSet = [] then none else some (sdNewD newSet))
          else lookupKey d rev := by
    intro d
    rw [hrevEq]
    by_cases hd : d = id
    · subst hd
      by_cases hnew : sdNewD newSet = []
      · simp [hnew, lookupKey_delKey_self]
      · simp [hnew, lookupKey_setKey_self]
    · by_cases hnew : sdNewD newSet = []
      · simp [hnew, hd, lookupKey_delKey_ne id d rev hd]
      · simp [hnew, hd, lookupKey_setKey_ne id d (sdNewD newSet) rev hd]
  have hmemOld : ∀ r : GroupVersionResource,
      (∃ t, lookupKey id rev = some t ∧ r ∈ t) ↔ r ∈ sdOld id rev := by
    intro r
    unfold sdOld
    cases hl : lookupKey id rev <;> simp
  have hmemRem : ∀ r, r ∈ sdRemoved id newSet rev
      ↔ (r ∈ sdOld id rev ∧ r ∉ sdNewD newSet) := by
    intro r
    unfold sdRemoved
    rw [List.mem_filter]
    simp
  have hmemAdd : ∀ r, r ∈ sdAdded id newSet rev
      ↔ (r ∈ sdNewD newSet ∧ r ∉ sdOld id rev) := by
    intro r
    unfold sdAdded
    rw [List.mem_filter]
    simp
  have hmemFresh : ∀ r, r ∈ sdFresh id newSet fwd rev
      ↔ (r ∈ sdAdded id newSet rev ∧ lookupKey r fwd = none) := by
    intro r
    unfold sdFresh
    rw [List.mem_filter]
    simp [Option.isNone_iff_eq_none]
  -- the forward side, characterized against the old index
  have hFiff : ∀ (d : ObjectID) (r : GroupVersionResource),
      (∃ s, lookupKey r (setDefinerLocked id newSet fwd rev).1 = some s ∧ d ∈ s)
        ↔ ((d = id ∧ r ∈ sdNewD newSet)
            ∨ (d ≠ id ∧ ∃ s, lookupKey r fwd = some s ∧ d ∈ s)) := by
    intro d r
    cases hl : lookupKey r fwd with
    | none =>
        rw [hlookF_none r hl]
        by_cases hrf : r ∈ sdFresh id newSet fwd rev
        · rw [if_pos hrf]
          constructor
          · rintro ⟨s, hs, hd⟩
            simp only [Option.some.injEq] at hs
            subst hs
            have hdid : d = id := List.mem_singleton.mp hd
            exact Or.inl ⟨hdid, ((hmemAdd r).mp ((hmemFresh r).mp hrf).1).1⟩
          · rintro (⟨hdid, _⟩ | ⟨_, s, hs, _⟩)
            · exact ⟨[id], rfl, hdid ▸ List.mem_singleton.mpr rfl⟩
            · exact absurd hs (by simp)
        · rw [if_neg hrf]
          constructor
          · rintro ⟨s, hs, _⟩
            exact absurd hs (by simp)
          · rintro (⟨hdid, hrn⟩ | ⟨hdne, s, hs, _⟩)
            · exfalso
              have hradd : r ∉ sdAdded id newSet rev := by
                intro hmem
                exact hrf ((hmemFresh r).mpr ⟨hmem, hl⟩)
              have hrold : r ∈ sdOld id rev := by
                by_contra hro
                exact hradd ((hmemAdd r).mpr ⟨hrn, hro⟩)
              obtain ⟨s, hs, _⟩ := (hiff id r).mpr ((hmemOld r).mpr hrold)
              rw [hl] at hs
              exact absurd hs (by simp)
            · exact absurd hs (by simp)
    | some s₀ =>
        rw [hlookF_some r s₀ hl]
        have hSomeInj : ∀ s : List ObjectID, (some s₀ = some s) ↔ s₀ = s := by
          intro s
          simp
        by_cases hrrem : r ∈ sdRemoved id newSet rev
        · have hstepEq : setDefinerStep id (sdRemoved id newSet rev)
              (sdAdded id newSet rev) (r, s₀)
              = (if s₀.filter (fun d => d ≠ id) = [] then none
                 else some (r, s₀.filter (fun d => d ≠ id))) := by
            simp [setDefinerStep, hrrem]
          rw [hstepEq]
          obtain ⟨hrold, hrnnew⟩ := (hmemRem r).mp hrrem
          by_cases hempty : s₀.filter (fun d => d ≠ id) = []
          · rw [if_pos hempty]
            constructor
            · rintro ⟨s, hs, _⟩
              exact absurd hs (by simp)
            · rintro (⟨hdid, hrn⟩ | ⟨hdne, s, hs, hds⟩)
              · exact absurd hrn hrnnew
              · obtain rfl : s₀ = s := (hSomeInj s).mp hs
                have hdf : d ∈ s₀.filter (fun x => x ≠ id) := by
                  rw [List.mem_filter]
                  exact ⟨hds, by simp [hdne]⟩
                rw [hempty] at hdf
                exact absurd hdf (by simp)
          · rw [if_neg hempty]
            constructor
            · rintro ⟨s, hs, hds⟩
              simp only [Option.map_some', Option.some.injEq] at hs
              subst hs
              rw [List.mem_filter] at hds
              refine Or.inr ⟨by simpa using hds.2, s₀, rfl, hds.1⟩
            · rintro (⟨hdid, hrn⟩ | ⟨hdne, s, hs, hds⟩)
              · exact absurd hrn hrnnew
              · obtain rfl : s₀ = s := (hSomeInj s).mp hs
                refine ⟨s₀.filter (fun x => x ≠ id), by simp, ?_⟩
                rw [List.mem_filter]
                exact ⟨hds, by simp [hdne]⟩
        · by_cases hradd : r ∈ sdAdded id newSet rev
          · have hstepEq : setDefinerStep id (sdRemoved id newSet rev)
                (sdAdded id newSet rev) (r, s₀)
                = some (r, if id ∈ s₀ then s₀ else s₀ ++ [id]) := by
              simp [setDefinerStep, hrrem, hradd]
            rw [hstepEq]
            have hrn : r ∈ sdNewD newSet := ((hmemAdd r).mp hradd).1
            constructor
            · rintro ⟨s, hs, hds⟩
              simp only [Option.map_some', Option.some.injEq] at hs
              subst hs
              by_cases hd : d = id
              · exact Or.inl ⟨hd, hrn⟩
              · refine Or.inr ⟨hd, s₀, rfl, ?_⟩
                by_cases hid : id ∈ s₀
                · simpa [hid] using hds
                · rw [if_neg hid] at hds
                  rcases List.mem_append.mp hds with h | h
                  · exact h
                  · exact absurd (List.mem_singleton.mp h) hd
            · rintro (⟨hdid, _⟩ | ⟨hdne, s, hs, hds⟩)
              · refine ⟨(if id ∈ s₀ then s₀ else s₀ ++ [id]), by simp, ?_⟩
                by_cases hid : id ∈ s₀
                · rw [if_pos hid, hdid]
                  exact hid
                · rw [if_neg hid, hdid]
                  exact List.mem_append.mpr (Or.inr (List.mem_singleton.mpr rfl))
              · obtain rfl : s₀ = s := (hSomeInj s).mp hs
                refine ⟨(if id ∈ s₀ then s₀ else s₀ ++ [id]), by simp, ?_⟩
                by_cases hid : id ∈ s₀
                · rw [if_pos hid]
                  exact hds
                · rw [if_neg hid]
                  exact List.mem_append.mpr (Or.inl hds)
          · have hstepEq : setDefinerStep id (sdRemoved id newSet rev)
                (sdAdded id newSet rev) (r, s₀) = some (r, s₀) := by
              simp [setDefinerStep, hrrem, hradd]
            rw [hstepEq]
            have holdiffnew : r ∈ sdOld id rev ↔ r ∈ sdNewD newSet := by
              constructor
              · intro h
                by_contra hn
                exact hrrem ((hmemRem r).mpr ⟨h, hn⟩)
              · intro h
                by_contra hn
                exact hradd ((hmemAdd r).mpr ⟨h, hn⟩)
            constructor
            · rintro ⟨s, hs, hds⟩
              simp only [Option.map_some', Option.some.injEq] at hs
              subst hs
              by_cases hd : d = id
              · refine Or.inl ⟨hd, ?_⟩
                rw [← holdiffnew, ← hmemOld]
                exact (hiff id r).mp ⟨s₀, hl, hd ▸ hds⟩
              · exact Or.inr ⟨hd, s₀, rfl, hds⟩
            · rintro (⟨hdid, hrn⟩ | ⟨hdne, s, hs, hds⟩)
              · refine ⟨s₀, by simp, ?_⟩
                have hrold : r ∈ sdOld id rev := holdiffnew.mpr hrn
                obtain ⟨s, hs, hds⟩ := (hiff id r).mpr ((hmemOld r).mpr hrold)
                rw [hl] at hs
                simp only [Option.some.injEq] at hs
                subst hs
                rw [hdid]
                exact hds
              · obtain rfl : s₀ = s := (hSomeInj s).mp hs
                exact ⟨s₀, by simp, hds⟩
  -- the reverse side
  have hRiff : ∀ (d : ObjectID) (r : GroupVersionResource),
      (∃ t, lookupKey d (setDefinerLocked id newSet fwd rev).2 = some t ∧ r ∈ t)
        ↔ ((d = id ∧ r ∈ sdNewD newSet)
            ∨ (d ≠ id ∧ ∃ t, lookupKey d rev = some t ∧ r ∈ t)) := by
    intro d r
    rw [hlookR d]
    by_cases hd : d = id
    · subst hd
      rw [if_pos rfl]
      by_cases hnew : sdNewD newSet = []
      · rw [if_pos hnew]
        constructor
        · rintro ⟨t, ht, _⟩
          exact absurd ht (by simp)
        · rintro (⟨_, hrn⟩ | ⟨hdne, _⟩)
          · rw [hnew] at hrn
            exact absurd hrn (by simp)
          · exact absurd rfl hdne
      · rw [if_neg hnew]
        constructor
        · rintro ⟨t, ht, hrt⟩
          simp only [Option.some.injEq] at ht
          subst ht
          exact Or.inl ⟨rfl, hrt⟩
        · rintro (⟨_, hrn⟩ | ⟨hdne, _⟩)
          · exact ⟨sdNewD newSet, rfl, hrn⟩
          · exact absurd rfl hdne
    · rw [if_neg hd]
      constructor
      · rintro ⟨t, ht, hrt⟩
        exact Or.inr ⟨hd, t, ht, hrt⟩
      · rintro (⟨heq, _⟩ | ⟨_, t, ht, hrt⟩)
        · exact absurd heq hd
        · exact ⟨t, ht, hrt⟩
  refine ⟨?_, ?_, ?_, ?_, ?_⟩
  · intro d r
    rw [hFiff d r, hRiff d r]
    constructor
    · rintro (h | ⟨hdne, hex⟩)
      · exact Or.inl h
      · exact Or.inr ⟨hdne, (hiff d r).mp hex⟩
    · rintro (h | ⟨hdne, hex⟩)
      · exact Or.inl h
      · exact Or.inr ⟨hdne, (hiff d r).mpr hex⟩
  · -- no empty set in the forward mapping
    intro r s hs
    have hmem := lookupKey_some_mem _ _ _ hs
    rw [hfwdEq, List.mem_append] at hmem
    rcases hmem with hmem | hmem
    · rw [List.mem_filterMap] at hmem
      obtain ⟨p, hp, hfp⟩ := hmem
      obtain ⟨pk, pv⟩ := p
      have hpne : pv ≠ [] :=
        hfne pk pv (lookupKey_of_mem_nodup pk pv fwd hp hfnd)
      simp only [setDefinerStep] at hfp
      split at hfp
      · split at hfp
        · exact absurd hfp (by simp)
        · rename_i hflt
          simp only [Option.some.injEq] at hfp
          have : s = pv.filter (fun d => d ≠ id) := (congrArg Prod.snd hfp).symm
          rw [this]
          exact hflt
      · split at hfp <;> simp only [Option.some.injEq] at hfp
        · have hseq : s = (if id ∈ pv then pv else pv ++ [id]) :=
            (congrArg Prod.snd hfp).symm
          rw [hseq]
          by_cases hid : id ∈ pv
          · simpa [hid] using hpne
          · simp [hid]
        · have hseq : s = pv := (congrArg Prod.snd hfp).symm
          rw [hseq]
          exact hpne
    · rw [List.mem_map] at hmem
      obtain ⟨r₂, _, heq⟩ := hmem
      have : s = [id] := (congrArg Prod.snd heq).symm
      rw [this]
      simp
  · -- no empty set in the reverse mapping
    intro d t ht
    rw [hlookR d] at ht
    by_cases hd : d = id
    · rw [if_pos hd] at ht
      by_cases hnew : sdNewD newSet = []
      · rw [if_pos hnew] at ht
        exact absurd ht (by simp)
      · rw [if_neg hnew] at ht
        simp only [Option.some.injEq] at ht
        subst ht
        exact hnew
    · rw [if_neg hd] at ht
      exact hrne d t ht
  · -- no duplicate keys in the forward mapping
    rw [hfwdEq, List.map_append]
    have hnd₁ : ((fwd.filterMap (setDefinerStep id (sdRemoved id newSet rev)
        (sdAdded id newSet rev))).map Prod.fst).Nodup :=
      List.Nodup.sublist (keys_filterMap_sublist _ hstep_key fwd) hfnd
    have hkeys₂ : ((sdFresh id newSet fwd rev).map (fun r => (r, [id]))).map Prod.fst
        = sdFresh id newSet fwd rev := by
      induction sdFresh id newSet fwd rev with
      | nil => rfl
      | cons a tl ih => simp [ih]
    have hnd₂ : (((sdFresh id newSet fwd rev).map
        (fun r => (r, [id]))).map Prod.fst).Nodup := by
      rw [hkeys₂]
      exact ((List.nodup_dedup newSet).filter _).filter _
    refine List.Nodup.append hnd₁ hnd₂ ?_
    intro k hk₁ hk₂
    rw [hkeys₂] at hk₂
    have hnone : lookupKey k fwd = none := ((hmemFresh k).mp hk₂).2
    have hknotin : k ∉ fwd.map Prod.fst := (lookupKey_eq_none_iff k fwd).mp hnone
    exact hknotin (keys_filterMap_subset _ hstep_key fwd k hk₁)
  · -- no duplicate keys in the reverse mapping
    rw [hrevEq]
    by_cases hnew : sdNewD newSet = []
    · rw [if_pos hnew]
      exact List.Nodup.sublist (keys_delKey_sublist id rev) hrnd
    · rw [if_neg hnew]
      exact keysNodup_setKey id (sdNewD newSet) rev hrnd

theorem initial_IndexWF :
    IndexWF initialCatalog.rscToDefiners initialCatalog.definerToRscs := by
  refine ⟨?_, ?_, ?_, ?_, ?_⟩ <;> simp [initialCatalog, lookupKey]

theorem invalidate_preserves_IndexWF (now : Int) (upd : Option DefinerUpdate)
    (st : CatalogState) (h : IndexWF st.rscToDefiners st.definerToRscs) :
    IndexWF (invalidateWithDefinerLocked now upd st).rscToDefiners
      (invalidateWithDefinerLocked now upd st).definerToRscs := by
  cases upd with
  | none => exact h
  | some u =>
      exact setDefinerLocked_preserves u.oid (if u.present then u.resources else [])
        st.rscToDefiners st.definerToRscs h

theorem applyOp_preserves_IndexWF (st : CatalogState) (op : CatalogOp)
    (h : IndexWF st.rscToDefiners st.definerToRscs) :
    IndexWF (applyOp st op).rscToDefiners (applyOp st op).definerToRscs := by
  cases op with
  | listOp inc feed => exact h
  | invalidateOp now => exact invalidate_preserves_IndexWF now none st h
  | invalidateWithDefinerOp now upd =>
      exact invalidate_preserves_IndexWF now (some upd) st h

theorem runOps_preserves_IndexWF (ops : List CatalogOp) :
    IndexWF (runOps initialCatalog ops).rscToDefiners
      (runOps initialCatalog ops).definerToRscs := by
  suffices h : ∀ st : CatalogState, IndexWF st.rscToDefiners st.definerToRscs →
      IndexWF (runOps st ops).rscToDefiners (runOps st ops).definerToRscs from
    h initialCatalog initial_IndexWF
  induction ops with
  | nil => intro st h; exact h
  | cons op rest ih =>
      intro st h
      exact ih (applyOp st op) (applyOp_preserves_IndexWF st op h)

/-- C3: after every sequence of catalog operations — in particular
every sequence of InvalidateWithDefiner calls — starting from the
initial catalog, the Definer Index's two mappings are mirror images: a
definer `d` is a member of the definer set mapped from a resource `r`
if and only if `r` is a member of the resource set mapped from `d`;
and neither mapping retains an entry whose set is empty. -/
theorem definer_index_mirror (ops : List CatalogOp) :
    (∀ (d : ObjectID) (r : GroupVersionResource),
        (∃ s, lookupKey r (runOps initialCatalog ops).rscToDefiners = some s ∧ d ∈ s)
          ↔ (∃ t, lookupKey d (runOps initialCatalog ops).definerToRscs = some t
              ∧ r ∈ t))
    ∧ (∀ r s, lookupKey r (runOps initialCatalog ops).rscToDefiners = some s → s ≠ [])
    ∧ (∀ d t, lookupKey d (runOps initialCatalog ops).definerToRscs = some t
        → t ≠ []) := by
  obtain ⟨h1, h2, h3, _, _⟩ := runOps_preserves_IndexWF ops
  exact ⟨h1, h2, h3⟩

theorem definer_index_mirror_witness :
    (∃ s, lookupKey (⟨"example.com", "v1", "widgets"⟩ : GroupVersionResource)
          (runOps initialCatalog
            [CatalogOp.invalidateWithDefinerOp 0
              ⟨⟨"apiextensions.k8s.io/v1", "CustomResourceDefinition",
                  "widgets.example.com"⟩,
                true, [⟨"example.com", "v1", "widgets"⟩]⟩]).rscToDefiners = some s
        ∧ (⟨"apiextensions.k8s.io/v1", "CustomResourceDefinition",
            "widgets.example.com"⟩ : ObjectID) ∈ s)
    ∧ ([⟨"apiextensions.k8s.io/v1", "CustomResourceDefinition",
          "widgets.example.com"⟩] : List ObjectID) ≠ [] := by
  constructor
  · exact ((definer_index_mirror
      [CatalogOp.invalidateWithDefinerOp 0
        ⟨⟨"apiextensions.k8s.io/v1", "CustomResourceDefinition",
            "widgets.example.com"⟩,
          true, [⟨"example.com", "v1", "widgets"⟩]⟩]).1
      ⟨"apiextensions.k8s.io/v1", "CustomResourceDefinition", "widgets.example.com"⟩
      ⟨"example.com", "v1", "widgets"⟩).mpr
      ⟨[⟨"example.com", "v1", "widgets"⟩], by decide, by decide⟩
  · exact (definer_index_mirror
      [CatalogOp.invalidateWithDefinerOp 0
        ⟨⟨"apiextensions.k8s.io/v1", "CustomResourceDefinition",
            "widgets.example.com"⟩,
          true, [⟨"example.com", "v1", "widgets"⟩]⟩]).2.1
      ⟨"example.com", "v1", "widgets"⟩
      [⟨"apiextensions.k8s.io/v1", "CustomResourceDefinition",
          "widgets.example.com"⟩] (by decide)

/-! ## Iteration-order sensitivity of List (C9)

The List pipeline ranges Go maps in two places, and Go map iteration
order is unspecified.  First, `arMap.toList` iterates every node map of
the subresource tree: one execution observes some reordering of every
child list.  `reorderNode`/`reorderEntries` apply an arbitrary
reordering `r` to every child list of the tree.  Second,
`definersToSlice` ranges each resource's definer set map
(resources.go:417): one execution observes some reordering of each
definer set's membership list, applied per resource by `rd`.
`listWithSubresourcesOrd r rd` is the List output as observed under
those iteration orders; the fixed-order `listWithSubresources` is the
run with the identity reorderings. -/

mutual

def reorderNode (r : List (String × ArNode) → List (String × ArNode)) :
    ArNode → ArNode
  | .mk sp children => .mk sp (r (reorderEntries r children))

def reorderEntries (r : List (String × ArNode) → List (String × ArNode)) :
    List (String × ArNode) → List (String × ArNode)
  | [] => []
  | (seg, n) :: rest => (seg, reorderNode r n) :: reorderEntries r rest

end

/-- `enumAPIResourcesLocked` as observed under definer-set iteration
order `rd`: identical except that each resource's definer set is
enumerated in the order produced by `rd` for that resource
(`definersToSlice` ranges the set map at resources.go:417). -/
def enumAPIResourcesLockedOrd
    (rd : GroupVersionResource → List ObjectID → List ObjectID)
    (fwd : FwdMap) (gv : String × String)
    (mrs : List MetaAPIResource) : List APIResourceSpec :=
  mrs.map fun rsc =>
    let rscVersion := if rsc.version = "" then gv.2 else rsc.version
    let gvr : GroupVersionResource := ⟨gv.1, rscVersion, rsc.name⟩
    let definers := definersToSlice (rd gvr ((lookupKey gvr fwd).getD []))
    APIResourceSpec.mk
      ⟨rsc.name, rsc.singularName, rsc.namespaced, gv.1, rscVersion, rsc.kind,
        rsc.verbs, definers⟩ []

/-- `listWithSubresources` as observed under Go map iteration orders
`r` and `rd`: identical except that every node map of the subresource
tree (the root map included) is enumerated in the order produced by
`r`, and every definer set in the order produced by `rd`. -/
def listWithSubresourcesOrd
    (r : List (String × ArNode) → List (String × ArNode))
    (rd : GroupVersionResource → List ObjectID → List ObjectID)
    (groups : List APIGroupFeed) (resourceLists : List APIResourceListFeed)
    (fwd : FwdMap) (resourceVersionS : String) : List APIResource :=
  let groupToVersion : List (String × String) :=
    groups.foldl (fun m ag => setKey ag.name ag.preferredVersion m) []
  (resourceLists.filterMap fun group =>
    match parseGroupVersion group.groupVersion with
    | none => none
    | some gv =>
        if (lookupKey gv.1 groupToVersion).getD "" ≠ gv.2 then none
        else
          let specs := enumAPIResourcesLockedOrd rd fwd gv group.apiResources
          let am := specs.foldl
            (fun am ar => arInsert ar (goSplitSlash ar.core.name) am) []
          some ((arToList (r (reorderEntries r am))).map fun spec =>
            specComplete spec resourceVersionS gv)).flatten

/-- The definers-order-insensitive view of one core: the core with its
definers list cleared, paired with its definers as a multiset.  The
definers list is produced by `definersToSlice` ranging the definer set
map (resources.go:417), so its order carries no information. -/
def coreCanon (c : SpecCore) : SpecCore × Multiset Definer :=
  ({ c with definers := [] }, (↑c.definers : Multiset Definer))

/-- One flattened spec entry: the path of names leading to the spec,
plus the canonical view of its core. -/
abbrev FlatEntry := List String × SpecCore × Multiset Definer

mutual

/-- Flatten a spec into (path, canonical core) entries, one per spec of
the nested structure. -/
def flattenSpec : List String → APIResourceSpec → List FlatEntry
  | path, .mk core subs =>
      (path ++ [core.name], coreCanon core)
        :: flattenSpecs (path ++ [core.name]) subs

def flattenSpecs : List String → List APIResourceSpec → List FlatEntry
  | _, [] => []
  | path, s :: rest => flattenSpec path s ++ flattenSpecs path rest

end

/-- The order-insensitive view of one emitted object: its name, its
list version stamp, and the multiset of its flattened spec entries. -/
def itemCanon (item : APIResource) :
    String × String × Multiset FlatEntry :=
  (item.metaName, item.resourceVersion, (↑(flattenSpec [] item.spec) : Multiset _))

/-- The order-insensitive view of an emitted collection. -/
def outCanon (out : List APIResource) :
    Multiset (String × String × Multiset FlatEntry) :=
  ↑(out.map itemCanon)

/-- The flattened contribution of one tree entry to the emitted specs
(the gap case contributes nothing). -/
def contribution (path : List String) :
    String × ArNode → Multiset FlatEntry
  | (_, .mk none _) => 0
  | (seg, .mk (some (.mk core subs)) children) =>
      ↑(flattenSpec path (.mk { core with name := seg }
          (subs ++ arToList children)))

mutual

/-- The iteration-order-free canonical flatten of one tree entry. -/
def canonTuple (path : List String) (seg : String) : ArNode →
    Multiset FlatEntry
  | .mk none _ => 0
  | .mk (some (.mk core subs)) children =>
      {(path ++ [seg], coreCanon { core with name := seg })}
        + ↑(flattenSpecs (path ++ [seg]) subs)
        + canonChildren (path ++ [seg]) children

/-- The iteration-order-free canonical flatten of a node map. -/
def canonChildren (path : List String) : List (String × ArNode) →
    Multiset FlatEntry
  | [] => 0
  | (seg, n) :: rest => canonTuple path seg n + canonChildren path rest

end

theorem flattenSpecs_append (path : List String) (l₁ l₂ : List APIResourceSpec) :
    flattenSpecs path (l₁ ++ l₂) = flattenSpecs path l₁ ++ flattenSpecs path l₂ := by
  induction l₁ with
  | nil => simp [flattenSpecs]
  | cons s tl ih => simp [flattenSpecs, ih]

theorem flatten_arToList_eq_sum (path : List String) (l : List (String × ArNode)) :
    (↑(flattenSpecs path (arToList l)) : Multiset FlatEntry)
      = (l.map (contribution path)).sum := by
  induction l with
  | nil => simp [arToList, flattenSpecs]
  | cons p rest ih =>
      obtain ⟨seg, n⟩ := p
      obtain ⟨sp, ch⟩ := n
      cases sp with
      | none =>
          rw [show arToList ((seg, ArNode.mk none ch) :: rest) = arToList rest
              from by simp [arToList]]
          rw [ih]
          simp [contribution]
      | some spec =>
          obtain ⟨core, subs⟩ := spec
          rw [show arToList ((seg, ArNode.mk (some (.mk core subs)) ch) :: rest)
              = APIResourceSpec.mk { core with name := seg } (subs ++ arToList ch)
                :: arToList rest from by simp [arToList]]
          rw [show flattenSpecs path
              (APIResourceSpec.mk { core with name := seg } (subs ++ arToList ch)
                :: arToList rest)
              = flattenSpec path (.mk { core with name := seg } (subs ++ arToList ch))
                ++ flattenSpecs path (arToList rest) from by simp [flattenSpecs]]
          rw [List.map_cons, List.sum_cons]
          rw [show contribution path (seg, ArNode.mk (some (.mk core subs)) ch)
              = ↑(flattenSpec path (.mk { core with name := seg }
                  (subs ++ arToList ch))) from rfl]
          rw [← ih]
          simp

theorem reorder_sum_aux (r : List (String × ArNode) → List (String × ArNode))
    (hr : ∀ l, List.Perm (r l) l) :
    ∀ (N : Nat) (l : List (String × ArNode)), sizeOf l ≤ N → ∀ path : List String,
      ((reorderEntries r l).map (contribution path)).sum = canonChildren path l := by
  intro N
  induction N with
  | zero =>
      intro l hl path
      cases l with
      | nil => simp [reorderEntries, canonChildren]
      | cons p rest =>
          exfalso
          simp only [List.cons.sizeOf_spec] at hl
          omega
  | succ N ih =>
      intro l hl path
      cases l with
      | nil => simp [reorderEntries, canonChildren]
      | cons p rest =>
          obtain ⟨seg, n⟩ := p
          obtain ⟨sp, ch⟩ := n
          have hrest : sizeOf rest ≤ N := by
            simp only [List.cons.sizeOf_spec, Prod.mk.sizeOf_spec,
              ArNode.mk.sizeOf_spec] at hl
            omega
          have hch : sizeOf ch ≤ N := by
            simp only [List.cons.sizeOf_spec, Prod.mk.sizeOf_spec,
              ArNode.mk.sizeOf_spec] at hl
            omega
          rw [show reorderEntries r ((seg, ArNode.mk sp ch) :: rest)
              = (seg, reorderNode r (ArNode.mk sp ch)) :: reorderEntries r rest
              from by simp [reorderEntries]]
          rw [List.map_cons, List.sum_cons, ih rest hrest path]
          rw [show canonChildren path ((seg, ArNode.mk sp ch) :: rest)
              = canonTuple path seg (ArNode.mk sp ch) + canonChildren path rest
              from by simp [canonChildren]]
          congr 1
          rw [show reorderNode r (ArNode.mk sp ch)
              = ArNode.mk sp (r (reorderEntries r ch)) from by simp [reorderNode]]
          cases sp with
          | none => simp [contribution, canonTuple]
          | some spec =>
              obtain ⟨core, subs⟩ := spec
              have hlast : (↑(flattenSpecs (path ++ [seg])
                    (arToList (r (reorderEntries r ch)))) : Multiset _)
                  = canonChildren (path ++ [seg]) ch := by
                rw [flatten_arToList_eq_sum]
                have hperm : List.Perm
                    ((r (reorderEntries r ch)).map (contribution (path ++ [seg])))
                    ((reorderEntries r ch).map (contribution (path ++ [seg]))) :=
                  (hr (reorderEntries r ch)).map _
                rw [hperm.sum_eq]
                exact ih ch hch (path ++ [seg])
              rw [show contribution path (seg, ArNode.mk (some (.mk core subs))
                  (r (reorderEntries r ch)))
                  = ↑(flattenSpec path (.mk { core with name := seg }
                      (subs ++ arToList (r (reorderEntries r ch))))) from rfl]
              rw [show flattenSpec path (.mk { core with name := seg }
                    (subs ++ arToList (r (reorderEntries r ch))))
                  = (path ++ [seg], coreCanon { core with name := seg })
                    :: flattenSpecs (path ++ [seg])
                        (subs ++ arToList (r (reorderEntries r ch)))
                  from by simp [flattenSpec]]
              rw [flattenSpecs_append]
              rw [show canonTuple path seg (ArNode.mk (some (.mk core subs)) ch)
                  = {(path ++ [seg], coreCanon { core with name := seg })}
                    + ↑(flattenSpecs (path ++ [seg]) subs)
                    + canonChildren (path ++ [seg]) ch from by simp [canonTuple]]
              rw [← hlast]
              simp [add_assoc]

/-- The canonical (iteration-order-free) view of one top-level tree
entry as an emitted object of a group. -/
def canonTop (gv : String × String) (rv : String) :
    String × ArNode → Multiset (String × String × Multiset FlatEntry)
  | (_, .mk none _) => 0
  | (seg, .mk (some (.mk core subs)) children) =>
      {(gv.1 ++ ":" ++ gv.2 ++ ":" ++ seg, rv,
        {([seg], coreCanon { core with name := seg })}
          + ↑(flattenSpecs [seg] subs)
          + canonChildren [seg] children)}

/-- The canonical view of the object emitted for one top-level tree
entry, before canonicalizing its interior. -/
def topContribution (gv : String × String) (rv : String) :
    String × ArNode → Multiset (String × String × Multiset FlatEntry)
  | (_, .mk none _) => 0
  | (seg, .mk (some (.mk core subs)) children) =>
      {itemCanon (specComplete (.mk { core with name := seg }
          (subs ++ arToList children)) rv gv)}

theorem outCanon_append (l₁ l₂ : List APIResource) :
    outCanon (l₁ ++ l₂) = outCanon l₁ + outCanon l₂ := by
  simp [outCanon]

theorem outCanon_cons (x : APIResource) (xs : List APIResource) :
    outCanon (x :: xs) = {itemCanon x} + outCanon xs := by
  simp [outCanon, Multiset.singleton_add]

theorem outCanon_arToList_eq_sum (gv : String × String) (rv : String)
    (l : List (String × ArNode)) :
    outCanon ((arToList l).map fun spec => specComplete spec rv gv)
      = (l.map (topContribution gv rv)).sum := by
  induction l with
  | nil => simp [arToList, outCanon]
  | cons p rest ih =>
      obtain ⟨seg, n⟩ := p
      obtain ⟨sp, ch⟩ := n
      cases sp with
      | none =>
          rw [show arToList ((seg, ArNode.mk none ch) :: rest) = arToList rest
              from by simp [arToList]]
          rw [ih]
          simp [topContribution]
      | some spec =>
          obtain ⟨core, subs⟩ := spec
          rw [show arToList ((seg, ArNode.mk (some (.mk core subs)) ch) :: rest)
              = APIResourceSpec.mk { core with name := seg } (subs ++ arToList ch)
                :: arToList rest from by simp [arToList]]
          rw [List.map_cons, outCanon_cons, ih, List.map_cons, List.sum_cons]
          rfl

theorem topContribution_reorder (r : List (String × ArNode) → List (String × ArNode))
    (hr : ∀ l, List.Perm (r l) l) (gv : String × String) (rv : String)
    (seg : String) (n : ArNode) :
    topContribution gv rv (seg, reorderNode r n) = canonTop gv rv (seg, n) := by
  obtain ⟨sp, ch⟩ := n
  rw [show reorderNode r (ArNode.mk sp ch)
      = ArNode.mk sp (r (reorderEntries r ch)) from by simp [reorderNode]]
  cases sp with
  | none => simp [topContribution, canonTop]
  | some spec =>
      obtain ⟨core, subs⟩ := spec
      rw [show topContribution gv rv (seg, ArNode.mk (some (.mk core subs))
          (r (reorderEntries r ch)))
          = {itemCanon (specComplete (.mk { core with name := seg }
              (subs ++ arToList (r (reorderEntries r ch)))) rv gv)} from rfl]
      rw [show canonTop gv rv (seg, ArNode.mk (some (.mk core subs)) ch)
          = {(gv.1 ++ ":" ++ gv.2 ++ ":" ++ seg, rv,
              {([seg], coreCanon { core with name := seg })}
                + (↑(flattenSpecs [seg] subs) : Multiset FlatEntry)
                + canonChildren [seg] ch)} from rfl]
      have hflat : (↑(flattenSpec [] (APIResourceSpec.mk { core with name := seg }
            (subs ++ arToList (r (reorderEntries r ch))))) : Multiset _)
          = {([seg], coreCanon { core with name := seg })}
            + (↑(flattenSpecs [seg] subs) : Multiset FlatEntry)
            + canonChildren [seg] ch := by
        rw [show flattenSpec [] (APIResourceSpec.mk { core with name := seg }
              (subs ++ arToList (r (reorderEntries r ch))))
            = ([seg], coreCanon { core with name := seg })
              :: flattenSpecs [seg] (subs ++ arToList (r (reorderEntries r ch)))
            from by simp [flattenSpec]]
        rw [flattenSpecs_append]
        have hlast : (↑(flattenSpecs [seg]
              (arToList (r (reorderEntries r ch)))) : Multiset _)
            = canonChildren [seg] ch := by
          rw [flatten_arToList_eq_sum]
          have hperm : List.Perm
              ((r (reorderEntries r ch)).map (contribution [seg]))
              ((reorderEntries r ch).map (contribution [seg])) :=
            (hr (reorderEntries r ch)).map _
          rw [hperm.sum_eq]
          exact reorder_sum_aux r hr (sizeOf ch) ch (Nat.le_refl _) [seg]
        rw [← hlast]
        simp [add_assoc]
      rw [show itemCanon (specComplete (APIResourceSpec.mk { core with name := seg }
            (subs ++ arToList (r (reorderEntries r ch)))) rv gv)
          = (gv.1 ++ ":" ++ gv.2 ++ ":" ++ seg, rv,
              ↑(flattenSpec [] (APIResourceSpec.mk { core with name := seg }
                (subs ++ arToList (r (reorderEntries r ch)))))) from rfl]
      rw [hflat]

theorem outCanon_group (r : List (String × ArNode) → List (String × ArNode))
    (hr : ∀ l, List.Perm (r l) l) (gv : String × String) (rv : String)
    (l : List (String × ArNode)) :
    outCanon ((arToList (r (reorderEntries r l))).map
        fun spec => specComplete spec rv gv)
      = (l.map (canonTop gv rv)).sum := by
  rw [outCanon_arToList_eq_sum]
  have hperm : List.Perm ((r (reorderEntries r l)).map (topContribution gv rv))
      ((reorderEntries r l).map (topContribution gv rv)) :=
    (hr (reorderEntries r l)).map _
  rw [hperm.sum_eq]
  clear hperm
  induction l with
  | nil => simp [reorderEntries]
  | cons p rest ih =>
      obtain ⟨seg, n⟩ := p
      rw [show reorderEntries r ((seg, n) :: rest)
          = (seg, reorderNode r n) :: reorderEntries r rest
          from by simp [reorderEntries]]
      rw [List.map_cons, List.sum_cons, List.map_cons, List.sum_cons]
      rw [topContribution_reorder r hr gv rv seg n, ih]

/-- The per-group emission of `listWithSubresourcesOrd`, with the
preferred-version map precomputed (used to reason group by group). -/
def listOrdGroups (r : List (String × ArNode) → List (String × ArNode))
    (rd : GroupVersionResource → List ObjectID → List ObjectID)
    (groupToVersion : List (String × String)) (fwd : FwdMap) (rv : String)
    (rls : List APIResourceListFeed) : List APIResource :=
  (rls.filterMap fun group =>
    match parseGroupVersion group.groupVersion with
    | none => none
    | some gv =>
        if (lookupKey gv.1 groupToVersion).getD "" ≠ gv.2 then none
        else
          some ((arToList (r (reorderEntries r
            ((enumAPIResourcesLockedOrd rd fwd gv group.apiResources).foldl
              (fun am ar => arInsert ar (goSplitSlash ar.core.name) am) [])))).map
            fun spec => specComplete spec rv gv)).flatten

theorem listWithSubresourcesOrd_eq_groups
    (r : List (String × ArNode) → List (String × ArNode))
    (rd : GroupVersionResource → List ObjectID → List ObjectID)
    (groups : List APIGroupFeed) (rls : List APIResourceListFeed)
    (fwd : FwdMap) (rv : String) :
    listWithSubresourcesOrd r rd groups rls fwd rv
      = listOrdGroups r rd
          (groups.foldl (fun m ag => setKey ag.name ag.preferredVersion m) [])
          fwd rv rls := rfl

theorem outCanon_listOrdGroups
    (r : List (String × ArNode) → List (String × ArNode))
    (hr : ∀ l, List.Perm (r l) l)
    (rd : GroupVersionResource → List ObjectID → List ObjectID)
    (gTV : List (String × String))
    (fwd : FwdMap) (rv : String) (rls : List APIResourceListFeed) :
    outCanon (listOrdGroups r rd gTV fwd rv rls)
      = (rls.map (fun group =>
          match parseGroupVersion group.groupVersion with
          | none => 0
          | some gv =>
              if (lookupKey gv.1 gTV).getD "" ≠ gv.2 then 0
              else (((enumAPIResourcesLockedOrd rd fwd gv group.apiResources).foldl
                  (fun am ar => arInsert ar (goSplitSlash ar.core.name) am) []).map
                    (canonTop gv rv)).sum)).sum := by
  induction rls with
  | nil => simp [listOrdGroups, outCanon]
  | cons g rest ih =>
      rw [List.map_cons, List.sum_cons]
      cases hp : parseGroupVersion g.groupVersion with
      | none =>
          have h1 : listOrdGroups r rd gTV fwd rv (g :: rest)
              = listOrdGroups r rd gTV fwd rv rest := by
            unfold listOrdGroups
            rw [List.filterMap_cons]
            simp [hp]
          rw [h1, ih]
          simp
      | some gv =>
          by_cases hv : (lookupKey gv.1 gTV).getD "" ≠ gv.2
          · have h1 : listOrdGroups r rd gTV fwd rv (g :: rest)
                = listOrdGroups r rd gTV fwd rv rest := by
              unfold listOrdGroups
              rw [List.filterMap_cons]
              simp [hp, hv]
            rw [h1, ih]
            simp [hv]
          · have hv₂ : (lookupKey gv.1 gTV).getD "" = gv.2 := not_not.mp hv
            have h1 : listOrdGroups r rd gTV fwd rv (g :: rest)
                = ((arToList (r (reorderEntries r
                    ((enumAPIResourcesLockedOrd rd fwd gv g.apiResources).foldl
                      (fun am ar => arInsert ar (goSplitSlash ar.core.name) am) [])))).map
                    fun spec => specComplete spec rv gv)
                  ++ listOrdGroups r rd gTV fwd rv rest := by
              unfold listOrdGroups
              rw [List.filterMap_cons]
              simp [hp, hv₂]
            rw [h1, outCanon_append, ih, outCanon_group r hr gv rv]
            simp [hv₂]

/-! The definer-set iteration order `rd` changes the definers lists
stored inside the emitted specs, so two runs under different `rd`
produce different trees.  The relations below say two specs / nodes /
child lists agree except in the order of their definers lists;
`coreCanon` collapses related cores to equal canonical values. -/

/-- Specs equal up to the order of their definers list; only
subresource-free specs, as `enumAPIResourcesLockedOrd` builds them,
enter the tree. -/
def SpecRel : APIResourceSpec → APIResourceSpec → Prop
  | .mk c₁ subs₁, .mk c₂ subs₂ =>
      coreCanon c₁ = coreCanon c₂ ∧ subs₁ = [] ∧ subs₂ = []

def SpecOptRel : Option APIResourceSpec → Option APIResourceSpec → Prop
  | none, none => True
  | some s₁, some s₂ => SpecRel s₁ s₂
  | none, some _ => False
  | some _, none => False

mutual

/-- Tree nodes equal up to the order of their stored definers lists. -/
def NodeRel : ArNode → ArNode → Prop
  | .mk sp₁ ch₁, .mk sp₂ ch₂ => SpecOptRel sp₁ sp₂ ∧ ChildrenRel ch₁ ch₂

/-- Node maps equal up to the order of their stored definers lists:
same keys in the same positions, related nodes. -/
def ChildrenRel : List (String × ArNode) → List (String × ArNode) → Prop
  | [], [] => True
  | (s₁, n₁) :: t₁, (s₂, n₂) :: t₂ =>
      s₁ = s₂ ∧ NodeRel n₁ n₂ ∧ ChildrenRel t₁ t₂
  | [], _ :: _ => False
  | _ :: _, [] => False

end

def NodeOptRel : Option ArNode → Option ArNode → Prop
  | none, none => True
  | some n₁, some n₂ => NodeRel n₁ n₂
  | none, some _ => False
  | some _, none => False

theorem nodeRel_mk (sp₁ sp₂ : Option APIResourceSpec)
    (ch₁ ch₂ : List (String × ArNode))
    (hs : SpecOptRel sp₁ sp₂) (hc : ChildrenRel ch₁ ch₂) :
    NodeRel (ArNode.mk sp₁ ch₁) (ArNode.mk sp₂ ch₂) := by
  rw [show NodeRel (ArNode.mk sp₁ ch₁) (ArNode.mk sp₂ ch₂)
      = (SpecOptRel sp₁ sp₂ ∧ ChildrenRel ch₁ ch₂) from by simp [NodeRel]]
  exact ⟨hs, hc⟩

theorem nodeRel_spec (n₁ n₂ : ArNode) (h : NodeRel n₁ n₂) :
    SpecOptRel n₁.spec n₂.spec := by
  obtain ⟨sp₁, ch₁⟩ := n₁
  obtain ⟨sp₂, ch₂⟩ := n₂
  rw [show NodeRel (ArNode.mk sp₁ ch₁) (ArNode.mk sp₂ ch₂)
      = (SpecOptRel sp₁ sp₂ ∧ ChildrenRel ch₁ ch₂) from by simp [NodeRel]] at h
  exact h.1

theorem nodeRel_children (n₁ n₂ : ArNode) (h : NodeRel n₁ n₂) :
    ChildrenRel n₁.children n₂.children := by
  obtain ⟨sp₁, ch₁⟩ := n₁
  obtain ⟨sp₂, ch₂⟩ := n₂
  rw [show NodeRel (ArNode.mk sp₁ ch₁) (ArNode.mk sp₂ ch₂)
      = (SpecOptRel sp₁ sp₂ ∧ ChildrenRel ch₁ ch₂) from by simp [NodeRel]] at h
  exact h.2

theorem nodeRel_refl_empty : NodeRel (ArNode.mk none []) (ArNode.mk none []) :=
  nodeRel_mk none none [] [] (by simp [SpecOptRel]) (by simp [ChildrenRel])

theorem nodeOptRel_getD (o₁ o₂ : Option ArNode) (h : NodeOptRel o₁ o₂) :
    NodeRel (o₁.getD (ArNode.mk none [])) (o₂.getD (ArNode.mk none [])) := by
  cases o₁ with
  | none =>
      cases o₂ with
      | none => simpa using nodeRel_refl_empty
      | some n₂ => simp [NodeOptRel] at h
  | some n₁ =>
      cases o₂ with
      | none => simp [NodeOptRel] at h
      | some n₂ => simpa using (by simpa [NodeOptRel] using h : NodeRel n₁ n₂)

theorem specRel_name (s₁ s₂ : APIResourceSpec) (h : SpecRel s₁ s₂) :
    s₁.core.name = s₂.core.name := by
  obtain ⟨c₁, subs₁⟩ := s₁
  obtain ⟨c₂, subs₂⟩ := s₂
  rw [show SpecRel (.mk c₁ subs₁) (.mk c₂ subs₂)
      = (coreCanon c₁ = coreCanon c₂ ∧ subs₁ = [] ∧ subs₂ = [])
    from by simp [SpecRel]] at h
  have h₁ := congrArg (fun p => p.1.name) h.1
  simpa [coreCanon] using h₁

theorem childrenRel_lookupKey (am₁ : List (String × ArNode)) :
    ∀ am₂, ChildrenRel am₁ am₂ → ∀ seg : String,
      NodeOptRel (lookupKey seg am₁) (lookupKey seg am₂) := by
  induction am₁ with
  | nil =>
      intro am₂ h seg
      cases am₂ with
      | nil => simp [lookupKey, NodeOptRel]
      | cons b t => simp [ChildrenRel] at h
  | cons a t₁ ih =>
      intro am₂ h seg
      obtain ⟨s₁, n₁⟩ := a
      cases am₂ with
      | nil => simp [ChildrenRel] at h
      | cons b t₂ =>
          obtain ⟨s₂, n₂⟩ := b
          rw [show ChildrenRel ((s₁, n₁) :: t₁) ((s₂, n₂) :: t₂)
              = (s₁ = s₂ ∧ NodeRel n₁ n₂ ∧ ChildrenRel t₁ t₂)
            from by simp [ChildrenRel]] at h
          obtain ⟨hseq, hn, ht⟩ := h
          by_cases hs : s₁ = seg
          · rw [show lookupKey seg ((s₁, n₁) :: t₁)
                = if s₁ = seg then some n₁ else lookupKey seg t₁
              from by simp [lookupKey]]
            rw [show lookupKey seg ((s₂, n₂) :: t₂)
                = if s₂ = seg then some n₂ else lookupKey seg t₂
              from by simp [lookupKey]]
            rw [if_pos hs, if_pos (hseq ▸ hs)]
            simpa [NodeOptRel] using hn
          · rw [show lookupKey seg ((s₁, n₁) :: t₁)
                = if s₁ = seg then some n₁ else lookupKey seg t₁
              from by simp [lookupKey]]
            rw [show lookupKey seg ((s₂, n₂) :: t₂)
                = if s₂ = seg then some n₂ else lookupKey seg t₂
              from by simp [lookupKey]]
            rw [if_neg hs, if_neg (hseq ▸ hs)]
            exact ih t₂ ht seg

theorem childrenRel_setKey (seg : String) (n₁ n₂ : ArNode) (hn : NodeRel n₁ n₂)
    (am₁ : List (String × ArNode)) :
    ∀ am₂, ChildrenRel am₁ am₂ →
      ChildrenRel (setKey seg n₁ am₁) (setKey seg n₂ am₂) := by
  induction am₁ with
  | nil =>
      intro am₂ h
      cases am₂ with
      | nil =>
          rw [show setKey seg n₁ ([] : List (String × ArNode)) = [(seg, n₁)]
              from by simp [setKey]]
          rw [show setKey seg n₂ ([] : List (String × ArNode)) = [(seg, n₂)]
              from by simp [setKey]]
          rw [show ChildrenRel [(seg, n₁)] [(seg, n₂)]
              = (seg = seg ∧ NodeRel n₁ n₂ ∧ ChildrenRel [] [])
            from by simp [ChildrenRel]]
          exact ⟨rfl, hn, by simp [ChildrenRel]⟩
      | cons b t => simp [ChildrenRel] at h
  | cons a t₁ ih =>
      intro am₂ h
      obtain ⟨s₁, m₁⟩ := a
      cases am₂ with
      | nil => simp [ChildrenRel] at h
      | cons b t₂ =>
          obtain ⟨s₂, m₂⟩ := b
          rw [show ChildrenRel ((s₁, m₁) :: t₁) ((s₂, m₂) :: t₂)
              = (s₁ = s₂ ∧ NodeRel m₁ m₂ ∧ ChildrenRel t₁ t₂)
            from by simp [ChildrenRel]] at h
          obtain ⟨hseq, hm, ht⟩ := h
          by_cases hs : s₁ = seg
          · rw [show setKey seg n₁ ((s₁, m₁) :: t₁)
                = if s₁ = seg then (s₁, n₁) :: t₁ else (s₁, m₁) :: setKey seg n₁ t₁
              from by simp [setKey]]
            rw [show setKey seg n₂ ((s₂, m₂) :: t₂)
                = if s₂ = seg then (s₂, n₂) :: t₂ else (s₂, m₂) :: setKey seg n₂ t₂
              from by simp [setKey]]
            rw [if_pos hs, if_pos (hseq ▸ hs)]
            rw [show ChildrenRel ((s₁, n₁) :: t₁) ((s₂, n₂) :: t₂)
                = (s₁ = s₂ ∧ NodeRel n₁ n₂ ∧ ChildrenRel t₁ t₂)
              from by simp [ChildrenRel]]
            exact ⟨hseq, hn, ht⟩
          · rw [show setKey seg n₁ ((s₁, m₁) :: t₁)
                = if s₁ = seg then (s₁, n₁) :: t₁ else (s₁, m₁) :: setKey seg n₁ t₁
              from by simp [setKey]]
            rw [show setKey seg n₂ ((s₂, m₂) :: t₂)
                = if s₂ = seg then (s₂, n₂) :: t₂ else (s₂, m₂) :: setKey seg n₂ t₂
              from by simp [setKey]]
            rw [if_neg hs, if_neg (hseq ▸ hs)]
            rw [show ChildrenRel ((s₁, m₁) :: setKey seg n₁ t₁)
                  ((s₂, m₂) :: setKey seg n₂ t₂)
                = (s₁ = s₂ ∧ NodeRel m₁ m₂
                    ∧ ChildrenRel (setKey seg n₁ t₁) (setKey seg n₂ t₂))
              from by simp [ChildrenRel]]
            exact ⟨hseq, hm, ih t₂ ht⟩

theorem childrenRel_arInsert (path : List String) :
    ∀ (s₁ s₂ : APIResourceSpec), SpecRel s₁ s₂ →
    ∀ (am₁ am₂ : List (String × ArNode)), ChildrenRel am₁ am₂ →
      ChildrenRel (arInsert s₁ path am₁) (arInsert s₂ path am₂) := by
  induction path with
  | nil =>
      intro s₁ s₂ hs am₁ am₂ ham
      simpa [arInsert] using ham
  | cons seg rest ih =>
      intro s₁ s₂ hs am₁ am₂ ham
      have hart := nodeOptRel_getD _ _ (childrenRel_lookupKey am₁ am₂ ham seg)
      cases rest with
      | nil =>
          rw [show arInsert s₁ [seg] am₁
              = setKey seg (ArNode.mk (some s₁)
                  ((lookupKey seg am₁).getD (ArNode.mk none [])).children) am₁
            from by simp [arInsert]]
          rw [show arInsert s₂ [seg] am₂
              = setKey seg (ArNode.mk (some s₂)
                  ((lookupKey seg am₂).getD (ArNode.mk none [])).children) am₂
            from by simp [arInsert]]
          refine childrenRel_setKey seg _ _ ?_ am₁ am₂ ham
          exact nodeRel_mk _ _ _ _ (by simpa [SpecOptRel] using hs)
            (nodeRel_children _ _ hart)
      | cons seg₂ rest₂ =>
          rw [show arInsert s₁ (seg :: seg₂ :: rest₂) am₁
              = setKey seg (ArNode.mk
                  ((lookupKey seg am₁).getD (ArNode.mk none [])).spec
                  (arInsert s₁ (seg₂ :: rest₂)
                    ((lookupKey seg am₁).getD (ArNode.mk none [])).children)) am₁
            from by simp [arInsert]]
          rw [show arInsert s₂ (seg :: seg₂ :: rest₂) am₂
              = setKey seg (ArNode.mk
                  ((lookupKey seg am₂).getD (ArNode.mk none [])).spec
                  (arInsert s₂ (seg₂ :: rest₂)
                    ((lookupKey seg am₂).getD (ArNode.mk none [])).children)) am₂
            from by simp [arInsert]]
          refine childrenRel_setKey seg _ _ ?_ am₁ am₂ ham
          exact nodeRel_mk _ _ _ _ (nodeRel_spec _ _ hart)
            (ih s₁ s₂ hs _ _ (nodeRel_children _ _ hart))

theorem childrenRel_fold (specs₁ specs₂ : List APIResourceSpec)
    (h : List.Forall₂ SpecRel specs₁ specs₂) :
    ∀ (am₁ am₂ : List (String × ArNode)), ChildrenRel am₁ am₂ →
      ChildrenRel
        (specs₁.foldl (fun am ar => arInsert ar (goSplitSlash ar.core.name) am) am₁)
        (specs₂.foldl (fun am ar => arInsert ar (goSplitSlash ar.core.name) am) am₂) := by
  induction h with
  | nil => intro am₁ am₂ ham; simpa using ham
  | @cons a b l₁ l₂ hs hrest ih =>
      intro am₁ am₂ ham
      rw [List.foldl_cons, List.foldl_cons]
      apply ih
      rw [specRel_name a b hs]
      exact childrenRel_arInsert (goSplitSlash b.core.name) a b hs am₁ am₂ ham

theorem definersToSlice_perm (l₁ l₂ : List ObjectID) (h : List.Perm l₁ l₂) :
    List.Perm (definersToSlice l₁) (definersToSlice l₂) :=
  h.map _

theorem specRel_of_definers_perm (c : SpecCore) (d₁ d₂ : List Definer)
    (hp : List.Perm d₁ d₂) :
    SpecRel (.mk { c with definers := d₁ } []) (.mk { c with definers := d₂ } []) := by
  rw [show SpecRel (.mk { c with definers := d₁ } []) (.mk { c with definers := d₂ } [])
      = (coreCanon { c with definers := d₁ } = coreCanon { c with definers := d₂ }
          ∧ ([] : List APIResourceSpec) = [] ∧ ([] : List APIResourceSpec) = [])
    from by simp [SpecRel]]
  refine ⟨?_, rfl, rfl⟩
  simp only [coreCanon, Prod.mk.injEq]
  refine ⟨by trivial, ?_⟩
  exact Multiset.coe_eq_coe.mpr hp

theorem enumOrd_specRel
    (rd₁ rd₂ : GroupVersionResource → List ObjectID → List ObjectID)
    (hd₁ : ∀ g l, List.Perm (rd₁ g l) l) (hd₂ : ∀ g l, List.Perm (rd₂ g l) l)
    (fwd : FwdMap) (gv : String × String) (mrs : List MetaAPIResource) :
    List.Forall₂ SpecRel (enumAPIResourcesLockedOrd rd₁ fwd gv mrs)
      (enumAPIResourcesLockedOrd rd₂ fwd gv mrs) := by
  induction mrs with
  | nil => exact List.Forall₂.nil
  | cons rsc rest ih =>
      refine List.Forall₂.cons ?_ ih
      refine specRel_of_definers_perm
        ⟨rsc.name, rsc.singularName, rsc.namespaced, gv.1,
          (if rsc.version = "" then gv.2 else rsc.version), rsc.kind, rsc.verbs, []⟩
        _ _ ?_
      exact definersToSlice_perm _ _ ((hd₁ _ _).trans (hd₂ _ _).symm)

theorem coreCanon_rename (c₁ c₂ : SpecCore) (seg : String)
    (h : coreCanon c₁ = coreCanon c₂) :
    coreCanon { c₁ with name := seg } = coreCanon { c₂ with name := seg } := by
  have h₁ := congrArg (fun p => ({ p.1 with name := seg }, p.2)) h
  simpa [coreCanon] using h₁

theorem canonChildren_rel :
    ∀ (N : Nat) (am₁ am₂ : List (String × ArNode)), sizeOf am₁ ≤ N →
      ChildrenRel am₁ am₂ → ∀ path : List String,
        canonChildren path am₁ = canonChildren path am₂ := by
  intro N
  induction N with
  | zero =>
      intro am₁ am₂ hsz h path
      cases am₁ with
      | nil =>
          cases am₂ with
          | nil => rfl
          | cons b t => simp [ChildrenRel] at h
      | cons a t =>
          exfalso
          simp only [List.cons.sizeOf_spec] at hsz
          omega
  | succ N ih =>
      intro am₁ am₂ hsz h path
      cases am₁ with
      | nil =>
          cases am₂ with
          | nil => rfl
          | cons b t => simp [ChildrenRel] at h
      | cons a t₁ =>
          obtain ⟨s₁, n₁⟩ := a
          cases am₂ with
          | nil => simp [ChildrenRel] at h
          | cons b t₂ =>
              obtain ⟨s₂, n₂⟩ := b
              rw [show ChildrenRel ((s₁, n₁) :: t₁) ((s₂, n₂) :: t₂)
                  = (s₁ = s₂ ∧ NodeRel n₁ n₂ ∧ ChildrenRel t₁ t₂)
                from by simp [ChildrenRel]] at h
              obtain ⟨hseq, hn, ht⟩ := h
              obtain ⟨sp₁, ch₁⟩ := n₁
              obtain ⟨sp₂, ch₂⟩ := n₂
              have hrest : sizeOf t₁ ≤ N := by
                simp only [List.cons.sizeOf_spec, Prod.mk.sizeOf_spec,
                  ArNode.mk.sizeOf_spec] at hsz
                omega
              have hch : sizeOf ch₁ ≤ N := by
                simp only [List.cons.sizeOf_spec, Prod.mk.sizeOf_spec,
                  ArNode.mk.sizeOf_spec] at hsz
                omega
              rw [show canonChildren path ((s₁, ArNode.mk sp₁ ch₁) :: t₁)
                  = canonTuple path s₁ (ArNode.mk sp₁ ch₁) + canonChildren path t₁
                from by simp [canonChildren]]
              rw [show canonChildren path ((s₂, ArNode.mk sp₂ ch₂) :: t₂)
                  = canonTuple path s₂ (ArNode.mk sp₂ ch₂) + canonChildren path t₂
                from by simp [canonChildren]]
              rw [ih t₁ t₂ hrest ht path]
              congr 1
              rw [show NodeRel (ArNode.mk sp₁ ch₁) (ArNode.mk sp₂ ch₂)
                  = (SpecOptRel sp₁ sp₂ ∧ ChildrenRel ch₁ ch₂)
                from by simp [NodeRel]] at hn
              obtain ⟨hsp, hchrel⟩ := hn
              subst hseq
              cases sp₁ with
              | none =>
                  cases sp₂ with
                  | none => rfl
                  | some s => simp [SpecOptRel] at hsp
              | some spec₁ =>
                  cases sp₂ with
                  | none => simp [SpecOptRel] at hsp
                  | some spec₂ =>
                      have hsr : SpecRel spec₁ spec₂ := by
                        simpa [SpecOptRel] using hsp
                      obtain ⟨c₁, subs₁⟩ := spec₁
                      obtain ⟨c₂, subs₂⟩ := spec₂
                      rw [show SpecRel (.mk c₁ subs₁) (.mk c₂ subs₂)
                          = (coreCanon c₁ = coreCanon c₂ ∧ subs₁ = [] ∧ subs₂ = [])
                        from by simp [SpecRel]] at hsr
                      obtain ⟨hcc, hsub₁, hsub₂⟩ := hsr
                      subst hsub₁
                      subst hsub₂
                      rw [show canonTuple path s₁ (ArNode.mk (some (.mk c₁ [])) ch₁)
                          = {(path ++ [s₁], coreCanon { c₁ with name := s₁ })}
                            + ↑(flattenSpecs (path ++ [s₁]) [])
                            + canonChildren (path ++ [s₁]) ch₁
                        from by simp [canonTuple]]
                      rw [show canonTuple path s₁ (ArNode.mk (some (.mk c₂ [])) ch₂)
                          = {(path ++ [s₁], coreCanon { c₂ with name := s₁ })}
                            + ↑(flattenSpecs (path ++ [s₁]) [])
                            + canonChildren (path ++ [s₁]) ch₂
                        from by simp [canonTuple]]
                      rw [coreCanon_rename c₁ c₂ s₁ hcc,
                        ih ch₁ ch₂ hch hchrel (path ++ [s₁])]

theorem canonTopSum_rel (gv : String × String) (rv : String) :
    ∀ (am₁ am₂ : List (String × ArNode)), ChildrenRel am₁ am₂ →
      (am₁.map (canonTop gv rv)).sum = (am₂.map (canonTop gv rv)).sum := by
  intro am₁
  induction am₁ with
  | nil =>
      intro am₂ h
      cases am₂ with
      | nil => rfl
      | cons b t => simp [ChildrenRel] at h
  | cons a t₁ ih =>
      intro am₂ h
      obtain ⟨s₁, n₁⟩ := a
      cases am₂ with
      | nil => simp [ChildrenRel] at h
      | cons b t₂ =>
          obtain ⟨s₂, n₂⟩ := b
          rw [show ChildrenRel ((s₁, n₁) :: t₁) ((s₂, n₂) :: t₂)
              = (s₁ = s₂ ∧ NodeRel n₁ n₂ ∧ ChildrenRel t₁ t₂)
            from by simp [ChildrenRel]] at h
          obtain ⟨hseq, hn, ht⟩ := h
          subst hseq
          rw [List.map_cons, List.sum_cons, List.map_cons, List.sum_cons, ih t₂ ht]
          congr 1
          obtain ⟨sp₁, ch₁⟩ := n₁
          obtain ⟨sp₂, ch₂⟩ := n₂
          rw [show NodeRel (ArNode.mk sp₁ ch₁) (ArNode.mk sp₂ ch₂)
              = (SpecOptRel sp₁ sp₂ ∧ ChildrenRel ch₁ ch₂)
            from by simp [NodeRel]] at hn
          obtain ⟨hsp, hchrel⟩ := hn
          cases sp₁ with
          | none =>
              cases sp₂ with
              | none => rfl
              | some s => simp [SpecOptRel] at hsp
          | some spec₁ =>
              cases sp₂ with
              | none => simp [SpecOptRel] at hsp
              | some spec₂ =>
                  have hsr : SpecRel spec₁ spec₂ := by
                    simpa [SpecOptRel] using hsp
                  obtain ⟨c₁, subs₁⟩ := spec₁
                  obtain ⟨c₂, subs₂⟩ := spec₂
                  rw [show SpecRel (.mk c₁ subs₁) (.mk c₂ subs₂)
                      = (coreCanon c₁ = coreCanon c₂ ∧ subs₁ = [] ∧ subs₂ = [])
                    from by simp [SpecRel]] at hsr
                  obtain ⟨hcc, hsub₁, hsub₂⟩ := hsr
                  subst hsub₁
                  subst hsub₂
                  rw [show canonTop gv rv (s₁, ArNode.mk (some (.mk c₁ [])) ch₁)
                      = {(gv.1 ++ ":" ++ gv.2 ++ ":" ++ s₁, rv,
                          {([s₁], coreCanon { c₁ with name := s₁ })}
                            + ↑(flattenSpecs [s₁] [])
                            + canonChildren [s₁] ch₁)} from by simp [canonTop]]
                  rw [show canonTop gv rv (s₁, ArNode.mk (some (.mk c₂ [])) ch₂)
                      = {(gv.1 ++ ":" ++ gv.2 ++ ":" ++ s₁, rv,
                          {([s₁], coreCanon { c₂ with name := s₁ })}
                            + ↑(flattenSpecs [s₁] [])
                            + canonChildren [s₁] ch₂)} from by simp [canonTop]]
                  rw [coreCanon_rename c₁ c₂ s₁ hcc,
                    canonChildren_rel (sizeOf ch₁) ch₁ ch₂ (Nat.le_refl _) hchrel [s₁]]

/-- C9 amended: for any two List runs in states with identical
discovery feed, identical definer index and identical version, and any
(unspecified, permutation-respecting) Go map iteration orders — `r` for
the subresource-tree node maps, `rd` for each resource's definer set —
the emitted collections agree up to ordering: up to the order of the
top-level list, of every nested subresource list, and of every spec's
definers list.  Their order-insensitive canonical views are equal. -/
theorem list_deterministic_up_to_order
    (r₁ r₂ : List (String × ArNode) → List (String × ArNode))
    (h₁ : ∀ l, List.Perm (r₁ l) l) (h₂ : ∀ l, List.Perm (r₂ l) l)
    (rd₁ rd₂ : GroupVersionResource → List ObjectID → List ObjectID)
    (hd₁ : ∀ g l, List.Perm (rd₁ g l) l) (hd₂ : ∀ g l, List.Perm (rd₂ g l) l)
    (groups : List APIGroupFeed) (rls : List APIResourceListFeed)
    (fwd : FwdMap) (rv : String) :
    outCanon (listWithSubresourcesOrd r₁ rd₁ groups rls fwd rv)
      = outCanon (listWithSubresourcesOrd r₂ rd₂ groups rls fwd rv) := by
  rw [listWithSubresourcesOrd_eq_groups, listWithSubresourcesOrd_eq_groups,
    outCanon_listOrdGroups r₁ h₁ rd₁, outCanon_listOrdGroups r₂ h₂ rd₂]
  congr 1
  apply List.map_congr_left
  intro group hg
  cases hp : parseGroupVersion group.groupVersion with
  | none => rfl
  | some gv =>
      by_cases hv : (lookupKey gv.1
          (groups.foldl (fun m ag => setKey ag.name ag.preferredVersion m) [])).getD ""
          ≠ gv.2
      · simp [hv]
      · simp only [if_neg hv]
        apply canonTopSum_rel
        exact childrenRel_fold _ _
          (enumOrd_specRel rd₁ rd₂ hd₁ hd₂ fwd gv group.apiResources)
          [] [] (by simp [ChildrenRel])

theorem list_deterministic_up_to_order_witness :
    (∀ l : List ObjectID,
        List.Perm ((fun (_ : GroupVersionResource) (l : List ObjectID) => l.reverse)
          ⟨"example.com", "v1", "widgets"⟩ l) l)
    ∧ outCanon (listWithSubresourcesOrd (fun l => l) (fun _ l => l)
        [⟨"example.com", "v1"⟩]
        [⟨"example.com/v1",
          [⟨"alpha", "", true, "", "Alpha", []⟩, ⟨"beta", "", true, "", "Beta", []⟩]⟩]
        [(⟨"example.com", "v1", "alpha"⟩,
          [⟨"apps/v1", "Deployment", "one"⟩, ⟨"apps/v1", "Deployment", "two"⟩])] "2")
      = outCanon (listWithSubresourcesOrd List.reverse (fun _ l => l.reverse)
          [⟨"example.com", "v1"⟩]
          [⟨"example.com/v1",
            [⟨"alpha", "", true, "", "Alpha", []⟩, ⟨"beta", "", true, "", "Beta", []⟩]⟩]
          [(⟨"example.com", "v1", "alpha"⟩,
            [⟨"apps/v1", "Deployment", "one"⟩, ⟨"apps/v1", "Deployment", "two"⟩])] "2") :=
  ⟨fun l => List.reverse_perm l,
    list_deterministic_up_to_order (fun l => l) List.reverse
      (fun l => List.Perm.refl l) (fun l => List.reverse_perm l)
      (fun _ l => l) (fun _ l => l.reverse)
      (fun _ l => List.Perm.refl l) (fun _ l => List.reverse_perm l)
      [⟨"example.com", "v1"⟩]
      [⟨"example.com/v1",
        [⟨"alpha", "", true, "", "Alpha", []⟩, ⟨"beta", "", true, "", "Beta", []⟩]⟩]
      [(⟨"example.com", "v1", "alpha"⟩,
        [⟨"apps/v1", "Deployment", "one"⟩, ⟨"apps/v1", "Deployment", "two"⟩])] "2"⟩

/-- A discovery feed group list: one group, preferred version v1. -/
def c9Groups : List APIGroupFeed := [⟨"example.com", "v1"⟩]

/-- A discovery resource feed: two flat resources, alpha and beta. -/
def c9Resources : List APIResourceListFeed :=
  [⟨"example.com/v1",
    [⟨"alpha", "", true, "", "Alpha", []⟩, ⟨"beta", "", true, "", "Beta", []⟩]⟩]

/-- The subresource tree the alpha/beta feed builds. -/
def c9Tree : List (String × ArNode) :=
  [("alpha", ArNode.mk
      (some (.mk ⟨"alpha", "", true, "example.com", "v1", "Alpha", [], []⟩ [])) []),
   ("beta", ArNode.mk
      (some (.mk ⟨"beta", "", true, "example.com", "v1", "Beta", [], []⟩ [])) [])]

/-- C9 counterexample: two List runs in identical states — the same
discovery feed, the same (empty) definer index, the same version
stamp — under two admissible Go map iteration orders (identity and
reversal, both permutation-respecting) return collections that differ
in the order of their top-level specs; List output order is therefore
not determined by the state. -/
theorem list_order_depends_on_iteration_order :
    ((listWithSubresourcesOrd (fun l => l) (fun _ l => l)
          c9Groups c9Resources [] "2").map
        fun item => item.metaName)
      = ["example.com:v1:alpha", "example.com:v1:beta"]
    ∧ ((listWithSubresourcesOrd List.reverse (fun _ l => l)
          c9Groups c9Resources [] "2").map
        fun item => item.metaName)
      = ["example.com:v1:beta", "example.com:v1:alpha"]
    ∧ listWithSubresourcesOrd (fun l => l) (fun _ l => l) c9Groups c9Resources [] "2"
        ≠ listWithSubresourcesOrd List.reverse (fun _ l => l) c9Groups c9Resources [] "2"
    ∧ (∀ l : List (String × ArNode), List.Perm ((fun l => l) l) l)
    ∧ (∀ l : List (String × ArNode), List.Perm (List.reverse l) l)
    ∧ (∀ (g : GroupVersionResource) (l : List ObjectID),
        List.Perm ((fun (_ : GroupVersionResource) (l : List ObjectID) => l) g l) l) := by
  have e_id : listWithSubresourcesOrd (fun l => l) (fun _ l => l)
        c9Groups c9Resources [] "2"
      = ((arToList ((fun l : List (String × ArNode) => l)
            (reorderEntries (fun l => l) c9Tree))).map
          fun spec => specComplete spec "2" ("example.com", "v1")) ++ [] := rfl
  have e_rev : listWithSubresourcesOrd List.reverse (fun _ l => l)
        c9Groups c9Resources [] "2"
      = ((arToList (List.reverse (reorderEntries List.reverse c9Tree))).map
          fun spec => specComplete spec "2" ("example.com", "v1")) ++ [] := rfl
  have hre_id : (fun l : List (String × ArNode) => l)
      (reorderEntries (fun l => l) c9Tree) = c9Tree := by
    simp [c9Tree, reorderEntries, reorderNode]
  have hre_rev : List.reverse (reorderEntries List.reverse c9Tree)
      = [("beta", ArNode.mk
            (some (.mk ⟨"beta", "", true, "example.com", "v1", "Beta", [], []⟩ [])) []),
         ("alpha", ArNode.mk
            (some (.mk ⟨"alpha", "", true, "example.com", "v1", "Alpha", [], []⟩ []))
            [])] := by
    simp [c9Tree, reorderEntries, reorderNode]
  have hto_id : arToList c9Tree
      = [.mk ⟨"alpha", "", true, "example.com", "v1", "Alpha", [], []⟩ [],
         .mk ⟨"beta", "", true, "example.com", "v1", "Beta", [], []⟩ []] := by
    simp [c9Tree, arToList]
  have hto_rev : arToList
      [("beta", ArNode.mk
          (some (.mk ⟨"beta", "", true, "example.com", "v1", "Beta", [], []⟩ [])) []),
       ("alpha", ArNode.mk
          (some (.mk ⟨"alpha", "", true, "example.com", "v1", "Alpha", [], []⟩ [])) [])]
      = [.mk ⟨"beta", "", true, "example.com", "v1", "Beta", [], []⟩ [],
         .mk ⟨"alpha", "", true, "example.com", "v1", "Alpha", [], []⟩ []] := by
    simp [arToList]
  have h1 : ((listWithSubresourcesOrd (fun l => l) (fun _ l => l)
        c9Groups c9Resources [] "2").map
      fun item => item.metaName)
      = ["example.com:v1:alpha", "example.com:v1:beta"] := by
    rw [e_id, hre_id, hto_id]
    decide
  have h2 : ((listWithSubresourcesOrd List.reverse (fun _ l => l)
        c9Groups c9Resources [] "2").map
      fun item => item.metaName)
      = ["example.com:v1:beta", "example.com:v1:alpha"] := by
    rw [e_rev, hre_rev, hto_rev]
    decide
  refine ⟨h1, h2, ?_, fun l => List.Perm.refl l, fun l => List.reverse_perm l,
    fun g l => List.Perm.refl l⟩
  intro heq
  rw [heq, h2] at h1
  exact absurd h1 (by decide)

end Apiwatch
